import Mathlib

/-!
xLearn: the cross-entropy loss and the training loop.

A shallow embedding of `src/loss/cross_entropy_loss.cc` and
`src/solver/trainer.cc`.

* `real_t` is an ordered field `R` (exact arithmetic); `exp` and `log1p` of
  the C library are carried in a `Libm R` record, instantiated with
  `Real.exp` and `fun x => Real.log (1 + x)` in the theorems about reals.
* A `CHECK_*` that fails, and a vector read outside its bounds, end the run
  with a `Fault`.
* The thread pool runs the enqueued workers one after the other, in the
  order in which they were enqueued, and `Sync` returns when all are done.
* `getStart` / `getEnd` (declared outside the two source files) are
  parameters, collected in `Shards`.
* Sizes, counts and indices (`size_t`, `index_t`, `int` loop counters) are
  natural numbers.
* The trainer's collaborators (readers, the abstract loss, the metric, the
  model) are outside the two source files: the loss and the metric are
  records of functions that may stop on a failed check, a reader is the list
  of batches it hands out, and a run of the trainer records every call it
  makes.  Printing is recorded as a call; the clock is not modelled.
-/

namespace xLearn

/-! ## Data model -/

/-- Why a run stops before it returns. -/
inductive Fault where
  /-- a `CHECK_*` macro failed -/
  | check
  /-- a vector was read outside its bounds -/
  | outOfBounds
  deriving DecidableEq

/-- The two C library functions the loss uses. -/
structure Libm (R : Type) where
  exp : R → R
  log1p : R → R

/-- Modelled from the spec: the batch type `DMatrix` (declared in
`src/data/data_structure.h`, not among the sources): an ordered sequence of
rows, the parallel sequence of labels `Y`, the per-row normalisation scalars
`norm` and the row count `row_length`. -/
structure DMatrix (Row R : Type) where
  row_length : Nat
  row : List Row
  Y : List R
  norm : List R
  deriving DecidableEq

/-- Modelled from the spec: the batch invariant "row count == label count ==
normalization-scalar count". -/
def DMatrix.WellFormed {Row R : Type} (m : DMatrix Row R) : Prop :=
  m.row.length = m.row_length ∧ m.Y.length = m.row_length ∧ m.norm.length = m.row_length

instance DMatrix.decidableWellFormed {Row R : Type} (m : DMatrix Row R) :
    Decidable m.WellFormed := by
  unfold DMatrix.WellFormed
  infer_instance

/-- Modelled from the spec: the `Score` capability (`CalcScore(row, model,
norm) -> scalar`, `CalcGrad(row, model, partial_grad, norm)` mutating the
model). -/
structure Score (Row R M : Type) where
  CalcScore : Row → M → R → R
  CalcGrad : Row → M → R → R → M

/-- The shard bounds `getStart(count, total, id)` and `getEnd(count, total,
id)`, which the loss calls and which are declared outside the sources. -/
structure Shards where
  getStart : Nat → Nat → Nat → Nat
  getEnd : Nat → Nat → Nat → Nat

/-- The partition contract of the parallel reduction for `T` items and `W`
workers: `start(0) = 0`, `end(i) = start(i+1)`, `end(W-1) = T` and
`start(i) ≤ end(i)`. -/
def Shards.Partition (sh : Shards) (T W : Nat) : Prop :=
  sh.getStart T W 0 = 0 ∧
  (∀ i, i < W - 1 → sh.getEnd T W i = sh.getStart T W (i + 1)) ∧
  sh.getEnd T W (W - 1) = T ∧
  (∀ i, i < W → sh.getStart T W i ≤ sh.getEnd T W i)

instance Shards.decidablePartition (sh : Shards) (T W : Nat) : Decidable (sh.Partition T W) := by
  unfold Shards.Partition
  infer_instance

/-- What a call that uses the thread pool leaves behind: the shards
`(start_idx, end_idx)` it enqueued, in order, and its result. -/
structure PoolRun (α : Type) where
  enqueued : List (Nat × Nat)
  result : Except Fault α

/-- The fields of `CrossEntropyLoss` that the two functions use (inherited
from `Loss`, whose declaration is outside the sources): the thread count, the
score function and the normalisation flag. -/
structure CrossEntropyLoss (Row R M : Type) where
  threadNumber_ : Nat
  score_func_ : Score Row R M
  norm_ : Bool

/-! ## `cross_entropy_loss.cc` -/

section Loss

variable {R : Type} [LinearOrderedField R] {Row M : Type}

/-- The label sign `label > 0 ? 1.0 : -1.0`. -/
def labelSign (label : R) : R := if label > 0 then 1 else -1

/-- The summand of `ce_evalute_thread`: `log1p(exp(-y*pred))`. -/
def ce_row_loss (lm : Libm R) (label pred : R) : R :=
  lm.log1p (lm.exp (-(labelSign label) * pred))

/-- The partial gradient of `ce_gradient_thread`:
`-y/(1.0+(1.0/exp(-y*score)))`. -/
def ce_partial_gradient (lm : Libm R) (label score : R) : R :=
  -(labelSign label) / (1 + 1 / lm.exp (-(labelSign label) * score))

/-- One iteration of the loop of `ce_evalute_thread`: read `label[i]` and
`pred[i]` and add the row loss to `tmp_sum`. -/
def ce_evalute_step (lm : Libm R) (pred label : List R) (tmp_sum : R) (i : Nat) :
    Except Fault R :=
  match label[i]?, pred[i]? with
  | some l, some p => .ok (tmp_sum + ce_row_loss lm l p)
  | _, _ => .error Fault.outOfBounds

/-- Run `step` for `i = start_idx, ..., end_idx - 1`, stopping at the first
fault: the loop `for (size_t i = start_idx; i < end_idx; ++i)`. -/
def forRange {α : Type} (step : α → Nat → Except Fault α) (acc : α) (start_idx : Nat) :
    Nat → Except Fault α
  | 0 => .ok acc
  | n + 1 =>
    match step acc start_idx with
    | .ok acc1 => forRange step acc1 (start_idx + 1) n
    | .error e => .error e

/-- The worker `ce_evalute_thread`; the value is what it leaves in
`*tmp_sum`. -/
def ce_evalute_thread (lm : Libm R) (pred label : List R) (start_idx end_idx : Nat) :
    Except Fault R :=
  if end_idx < start_idx then .error Fault.check
  else forRange (ce_evalute_step lm pred label) 0 start_idx (end_idx - start_idx)

/-- Run the workers `job 0, ..., job (W-1)` in order and collect what they
leave, stopping at the first fault. -/
def runWorkers {α : Type} (job : Nat → Except Fault α) : List Nat → Except Fault (List α)
  | [] => .ok []
  | i :: is =>
    match job i with
    | .ok a =>
      match runWorkers job is with
      | .ok as => .ok (a :: as)
      | .error e => .error e
    | .error e => .error e

/-- The shards enqueued for `T` items by `W` workers. -/
def shardsOf (sh : Shards) (T W : Nat) : List (Nat × Nat) :=
  (List.range W).map fun i => (sh.getStart T W i, sh.getEnd T W i)

/-- `CrossEntropyLoss::Evalute`. -/
def CrossEntropyLoss.Evalute (self : CrossEntropyLoss Row R M) (lm : Libm R) (sh : Shards)
    (pred label : List R) : PoolRun R :=
  if pred.isEmpty then ⟨[], .error Fault.check⟩
  else if label.isEmpty then ⟨[], .error Fault.check⟩
  else
    let W := self.threadNumber_
    ⟨shardsOf sh pred.length W,
      match runWorkers (fun i => ce_evalute_thread lm pred label
              (sh.getStart pred.length W i) (sh.getEnd pred.length W i)) (List.range W) with
      | .ok sum => .ok (sum.foldl (fun val s => val + s) 0)
      | .error e => .error e⟩

/-- One iteration of the loop of `ce_gradient_thread`. -/
def ce_gradient_step (lm : Libm R) (matrix : DMatrix Row R) (score_func : Score Row R M)
    (is_norm : Bool) (model : M) (i : Nat) : Except Fault M :=
  match matrix.row[i]?, (if is_norm then matrix.norm[i]? else some 1), matrix.Y[i]? with
  | some row, some norm, some yi =>
    let score := score_func.CalcScore row model norm
    let pg := ce_partial_gradient lm yi score
    .ok (score_func.CalcGrad row model pg norm)
  | _, _, _ => .error Fault.outOfBounds

/-- The worker `ce_gradient_thread`; the value is the model it leaves. -/
def ce_gradient_thread (lm : Libm R) (matrix : DMatrix Row R) (model : M)
    (score_func : Score Row R M) (is_norm : Bool) (start_idx end_idx : Nat) :
    Except Fault M :=
  if end_idx < start_idx then .error Fault.check
  else forRange (ce_gradient_step lm matrix score_func is_norm) model start_idx
    (end_idx - start_idx)

/-- The workers of `CalcGrad`, run in order on the shared model. -/
def runGradWorkers (job : Nat → M → Except Fault M) (model : M) : List Nat → Except Fault M
  | [] => .ok model
  | i :: is =>
    match job i model with
    | .ok model1 => runGradWorkers job model1 is
    | .error e => .error e

/-- `CrossEntropyLoss::CalcGrad`; `matrix` is a pointer, `none` when null.
The value is the model after `Sync`. -/
def CrossEntropyLoss.CalcGrad (self : CrossEntropyLoss Row R M) (lm : Libm R) (sh : Shards)
    (matrix : Option (DMatrix Row R)) (model : M) : PoolRun M :=
  match matrix with
  | none => ⟨[], .error Fault.check⟩
  | some mat =>
    if mat.row_length ≤ 0 then ⟨[], .error Fault.check⟩
    else
      let row_len := mat.row_length
      let W := self.threadNumber_
      ⟨shardsOf sh row_len W,
        runGradWorkers (fun i mdl => ce_gradient_thread lm mat mdl self.score_func_ self.norm_
          (sh.getStart row_len W i) (sh.getEnd row_len W i)) model (List.range W)⟩

/-- The loss as the specification words it, computed by a single thread: the
sum over all rows of `log(1 + exp(-y_i * pred_i))` with `y_i = +1` if
`label_i > 0` and `-1` otherwise. -/
def Evalute_spec (lm : Libm R) (pred label : List R) : R :=
  (List.zipWith (fun p l => lm.log1p (lm.exp (-(if l > 0 then (1 : R) else -1) * p)))
    pred label).sum

/-- The row losses of a batch, row by row. -/
def rowLosses (lm : Libm R) (pred label : List R) : List R :=
  List.zipWith (fun p l => ce_row_loss lm l p) pred label

end Loss

/-- A concrete pair of shard bounds, used to instantiate the theorems: equal
gaps of `count / total` rows, the remainder going to the last worker. -/
def gapShards : Shards where
  getStart := fun count total id => id * (count / total)
  getEnd := fun count total id =>
    if id + 1 = total then (id + 1) * (count / total) + count % total
    else (id + 1) * (count / total)

/-- The `i`-th cut point of the shards: where worker `i` starts, and `T` from
worker `W` on. -/
def cut (sh : Shards) (T W : Nat) (i : Nat) : Nat := if i < W then sh.getStart T W i else T

/-! ## `trainer.cc`

The trainer talks to collaborators whose code is outside the two source
files (readers, the abstract `Loss`, the metric, the model).  A run of a
trainer function is a function from the memory it works on to an `Out`: the
calls it made, in order, the memory where it returned or stopped, and the
value it returned or the reason why it stopped. -/

/-- A `Reader*`. -/
abbrev ReaderPtr := Nat

/-- Modelled from the spec: the data behind a `Reader` (`src/reader/reader.h`
is not among the sources): the batches it hands out, one per `Samples` call,
in order.  `Reset()` rewinds the reader to the first of them; `Samples(out
batch)` hands out the next one and returns its row count, and returns 0 when
none is left. -/
abbrev ReaderStream (Row R : Type) : Type := List (DMatrix Row R)

/-- The four counters that `CalcLoss_Metric` hands to the metric. -/
structure Counters where
  real_pos_example : Nat
  real_neg_example : Nat
  pre_pos_example : Nat
  pre_neg_example : Nat
  deriving DecidableEq

/-- Modelled from the spec: the abstract `Loss` capability as the trainer
sees it (`src/loss/loss.h` is not among the sources): `Evalute(pred, label)`,
`CalcGrad(batch, model)` mutating the model and `Predict(batch, model, out
pred)` writing the prediction buffer; each may stop on a failed check. -/
structure Loss (Row R M : Type) where
  Evalute : List R → List R → Except Fault R
  CalcGrad : DMatrix Row R → M → Except Fault M
  Predict : DMatrix Row R → M → List R → Except Fault (List R)

/-- Modelled from the spec: the `Metric` capability (`Accumulate(counters...,
labels, predictions)`, `Set(counts...)`, `GetMetric()`, `type()`), with `Met`
the metric object's own state. -/
structure Metric (R Met : Type) where
  Accumulate : Counters → List R → List R → Except Fault Counters
  Set : Counters → Met → Met
  GetMetric : Met → R
  type : String

/-- The fields of `Trainer` (`src/solver/trainer.h` is not among the sources,
so `epoch_` is taken as a natural number), with what its pointers point to:
`Model_Reset` is `Model::Reset` of `model_`, and `data r` is the stream of the
reader behind the pointer `r`. -/
structure Trainer (Row R M Met : Type) where
  epoch_ : Nat
  quiet_ : Bool
  loss_ : Loss Row R M
  metric_ : Metric R Met
  Model_Reset : M → M
  reader_list_ : List ReaderPtr
  data : ReaderPtr → ReaderStream Row R

/-- The memory a trainer run works on: the model, the metric object and, for
every reader, the batches it has not handed out yet. -/
structure Mem (Row R M Met : Type) where
  model_ : M
  metric : Met
  cursor : ReaderPtr → ReaderStream Row R

/-- The calls a run makes, in the order in which it makes them. -/
inductive Call (Row R : Type) where
  | train (train_reader test_reader : List ReaderPtr)
  | CalcGrad_Update (reader : List ReaderPtr)
  | CalcLoss_Metric (reader : List ReaderPtr)
  | show_head_info (validate : Bool)
  | show_train_info (tr_loss tr_metric te_loss te_metric : R) (validate : Bool) (epoch : Nat)
  | printf (fold total : Nat)
  | Reader_Reset (r : ReaderPtr)
  | Reader_Samples (r : ReaderPtr) (count : Nat)
  | Loss_CalcGrad (matrix : DMatrix Row R)
  | Loss_Predict (matrix : DMatrix Row R) (pred : List R)
  | Loss_Evalute (pred label : List R)
  | Metric_Accumulate (Y pred : List R)
  | Metric_Set (c : Counters)
  | Metric_GetMetric
  | Metric_type
  | Model_Reset
  deriving DecidableEq

/-- Why a trainer run stops before it returns. -/
inductive Stop where
  /-- `CHECK_NE(reader.empty(), true)` failed -/
  | reader_empty
  /-- `reader_list_` was read outside its bounds -/
  | outOfBounds
  /-- a call into the loss stopped -/
  | in_Loss (f : Fault)
  /-- a call into the metric stopped -/
  | in_Metric (f : Fault)
  deriving DecidableEq

/-- What a run leaves behind. -/
structure Out (C σ α : Type) where
  calls : List C
  mem : σ
  val : Except Stop α

/-- A run: from the memory at the start to what it leaves behind. -/
def Exec (C σ α : Type) : Type := σ → Out C σ α

namespace Exec

variable {C σ α β : Type}

/-- Return `a` without doing anything. -/
def ret (a : α) : Exec C σ α := fun s => ⟨[], s, .ok a⟩

/-- Run `m`; if it returns, go on with `f`; if it stops, stop there. -/
def andThen (m : Exec C σ α) (f : α → Exec C σ β) : Exec C σ β := fun s =>
  match (m s).val with
  | .ok a => ⟨(m s).calls ++ (f a (m s).mem).calls, (f a (m s).mem).mem, (f a (m s).mem).val⟩
  | .error e => ⟨(m s).calls, (m s).mem, .error e⟩

instance : Monad (Exec C σ) where
  pure := ret
  bind := andThen

/-- Record the call `c`. -/
def call (c : C) : Exec C σ Unit := fun s => ⟨[c], s, .ok ()⟩

/-- Stop with `e`. -/
def stop (e : Stop) : Exec C σ α := fun s => ⟨[], s, .error e⟩

/-- Read the memory. -/
def read : Exec C σ σ := fun s => ⟨[], s, .ok s⟩

/-- Change the memory. -/
def write (f : σ → σ) : Exec C σ Unit := fun s => ⟨[], f s, .ok ()⟩

/-- The loop `for (x : xs) body(x)`. -/
def forEach {ι : Type} (body : ι → Exec C σ Unit) : List ι → Exec C σ Unit
  | [] => ret ()
  | x :: xs => andThen (body x) fun _ => forEach body xs

/-- The loop `for (x : xs) acc = body(x, acc)` over local variables `acc`. -/
def forEachAcc {ι : Type} (body : ι → α → Exec C σ α) : List ι → α → Exec C σ α
  | [], acc => ret acc
  | x :: xs, acc => andThen (body x acc) fun acc1 => forEachAcc body xs acc1

end Exec

/-- The local variables of `CalcLoss_Metric` that its loops update. -/
structure EvalLocals (R : Type) where
  count_sample : Nat
  loss_val : R
  counters : Counters
  pred : List R

/-- `std::vector::resize(n)`: keep the first `n` elements, pad with zeroes. -/
def resize {R : Type} [Zero R] (v : List R) (n : Nat) : List R :=
  v.take n ++ List.replicate (n - v.length) 0

/-- The statement `if (tmp != pred.size()) { pred.resize(tmp); }`. -/
def fitPred {R : Type} [Zero R] (pred : List R) (tmp : Nat) : List R :=
  if tmp ≠ pred.length then resize pred tmp else pred

section TrainerCode

variable {Row R M Met : Type} [Field R]

/-- A run of the trainer. -/
abbrev Run (Row R M Met α : Type) : Type := Exec (Call Row R) (Mem Row R M Met) α

/-- Modelled from the spec: `reader->Reset()`, which rewinds reader `r` to its
first batch. -/
def Reader_Reset (T : Trainer Row R M Met) (r : ReaderPtr) : Run Row R M Met Unit := do
  Exec.call (Call.Reader_Reset r)
  Exec.write fun s => { s with cursor := Function.update s.cursor r (T.data r) }

/-- `loss_->CalcGrad(matrix, *model_)`. -/
def Loss_CalcGrad (T : Trainer Row R M Met) (matrix : DMatrix Row R) :
    Run Row R M Met Unit := do
  Exec.call (Call.Loss_CalcGrad matrix)
  let s ← Exec.read
  match T.loss_.CalcGrad matrix s.model_ with
  | .ok model1 => Exec.write fun s => { s with model_ := model1 }
  | .error f => Exec.stop (Stop.in_Loss f)

/-- `loss_->Predict(matrix, *model_, pred)`; the value is `pred` after the
call. -/
def Loss_Predict (T : Trainer Row R M Met) (matrix : DMatrix Row R) (pred : List R) :
    Run Row R M Met (List R) := do
  Exec.call (Call.Loss_Predict matrix pred)
  let s ← Exec.read
  match T.loss_.Predict matrix s.model_ pred with
  | .ok pred1 => pure pred1
  | .error f => Exec.stop (Stop.in_Loss f)

/-- `metric_->Accumulate(&real_pos_example, ..., matrix->Y, pred)`; the value
is the four counters after the call. -/
def Metric_Accumulate (T : Trainer Row R M Met) (c : Counters) (Y pred : List R) :
    Run Row R M Met Counters := do
  Exec.call (Call.Metric_Accumulate Y pred)
  match T.metric_.Accumulate c Y pred with
  | .ok c1 => pure c1
  | .error f => Exec.stop (Stop.in_Metric f)

/-- `loss_->Evalute(pred, matrix->Y)`. -/
def Loss_Evalute (T : Trainer Row R M Met) (pred label : List R) : Run Row R M Met R := do
  Exec.call (Call.Loss_Evalute pred label)
  match T.loss_.Evalute pred label with
  | .ok e => pure e
  | .error f => Exec.stop (Stop.in_Loss f)

/-- Modelled from the spec: `reader->Samples(matrix)` on reader `r` when it
has the batches `left` left: at the end of its stream it returns 0; otherwise
it hands out the next batch (the head of `left`, which `matrix` then points
to), moves past it and returns its row count. -/
def Reader_Samples (r : ReaderPtr) : List (DMatrix Row R) → Run Row R M Met Nat
  | [] => do
    Exec.call (Call.Reader_Samples r 0)
    pure 0
  | matrix :: rest => do
    Exec.write fun s => { s with cursor := Function.update s.cursor r rest }
    Exec.call (Call.Reader_Samples r matrix.row_length)
    pure matrix.row_length

/-- The loop `while (reader[i]->Samples(matrix)) loss_->CalcGrad(matrix,
*model_)` of `CalcGrad_Update`, by recursion on the batches reader `r` has
left: every round starts with one `Samples` call. -/
def gradWhile (T : Trainer Row R M Met) (r : ReaderPtr) :
    List (DMatrix Row R) → Run Row R M Met Unit
  | [] => do
    let _ ← Reader_Samples r []
    pure ()
  | matrix :: rest => do
    let tmp ← Reader_Samples r (matrix :: rest)
    if tmp = 0 then pure ()
    else do
      Loss_CalcGrad T matrix
      gradWhile T r rest

/-- The body of the loop over `reader[i]` of `CalcGrad_Update`. -/
def Trainer.gradReader (T : Trainer Row R M Met) (r : ReaderPtr) : Run Row R M Met Unit := do
  Reader_Reset T r
  let s ← Exec.read
  gradWhile T r (s.cursor r)

/-- `Trainer::CalcGrad_Update`. -/
def Trainer.CalcGrad_Update (T : Trainer Row R M Met) (reader : List ReaderPtr) :
    Run Row R M Met Unit := do
  Exec.call (Call.CalcGrad_Update reader)
  if reader.isEmpty then Exec.stop Stop.reader_empty
  else Exec.forEach T.gradReader reader

/-- The loop `while (1)` of `CalcLoss_Metric`, by recursion on the batches
reader `r` has left (see `gradWhile`). -/
def evalWhile (T : Trainer Row R M Met) (r : ReaderPtr) :
    List (DMatrix Row R) → EvalLocals R → Run Row R M Met (EvalLocals R)
  | [], L => do
    let _ ← Reader_Samples r []
    pure L
  | matrix :: rest, L => do
    let tmp ← Reader_Samples r (matrix :: rest)
    if tmp = 0 then pure L
    else do
      let pred := fitPred L.pred tmp
      let count_sample := L.count_sample + tmp
      let pred1 ← Loss_Predict T matrix pred
      let counters ← Metric_Accumulate T L.counters matrix.Y pred1
      let e ← Loss_Evalute T pred1 matrix.Y
      evalWhile T r rest ⟨count_sample, L.loss_val + e, counters, pred1⟩

/-- The body of the loop over `reader[i]` of `CalcLoss_Metric`. -/
def Trainer.evalReader (T : Trainer Row R M Met) (r : ReaderPtr) (L : EvalLocals R) :
    Run Row R M Met (EvalLocals R) := do
  Reader_Reset T r
  let s ← Exec.read
  evalWhile T r (s.cursor r) L

/-- `Trainer::CalcLoss_Metric`; the value is `(*loss, *metric)`. -/
def Trainer.CalcLoss_Metric (T : Trainer Row R M Met) (reader : List ReaderPtr) :
    Run Row R M Met (R × R) := do
  Exec.call (Call.CalcLoss_Metric reader)
  if reader.isEmpty then Exec.stop Stop.reader_empty
  else do
    let L ← Exec.forEachAcc T.evalReader reader ⟨0, 0, ⟨0, 0, 0, 0⟩, []⟩
    let loss_val := L.loss_val / (L.count_sample : R)
    Exec.call (Call.Metric_Set L.counters)
    Exec.write fun s => { s with metric := T.metric_.Set L.counters s.metric }
    Exec.call Call.Metric_GetMetric
    let s ← Exec.read
    pure (loss_val, T.metric_.GetMetric s.metric)

/-- `Trainer::show_head_info`: it asks the metric for its name once, and once
more when there is a test set. -/
def Trainer.show_head_info (_T : Trainer Row R M Met) (validate : Bool) :
    Run Row R M Met Unit := do
  Exec.call (Call.show_head_info validate)
  Exec.call Call.Metric_type
  if validate then Exec.call Call.Metric_type

/-- The body of the epoch loop of `train`, for epoch `n`. -/
def Trainer.epoch (T : Trainer Row R M Met) (train_reader test_reader : List ReaderPtr)
    (validate : Bool) (n : Nat) : Run Row R M Met Unit := do
  T.CalcGrad_Update train_reader
  if !T.quiet_ then
    let tr ← T.CalcLoss_Metric train_reader
    let te ← if validate then T.CalcLoss_Metric test_reader else pure (0, 0)
    Exec.call (Call.show_train_info tr.1 tr.2 te.1 te.2 validate n)

/-- `Trainer::train`. -/
def Trainer.train (T : Trainer Row R M Met) (train_reader test_reader : List ReaderPtr) :
    Run Row R M Met Unit := do
  Exec.call (Call.train train_reader test_reader)
  let validate := !test_reader.isEmpty
  if !T.quiet_ then T.show_head_info validate
  Exec.forEach (T.epoch train_reader test_reader validate) (List.range T.epoch_)

/-- `Trainer::Train`. -/
def Trainer.Train (T : Trainer Row R M Met) : Run Row R M Met Unit :=
  match T.reader_list_[0]? with
  | none => Exec.stop Stop.outOfBounds
  | some r0 =>
    if T.reader_list_.length = 2 then
      match T.reader_list_[1]? with
      | none => Exec.stop Stop.outOfBounds
      | some r1 => T.train [r0] [r1]
    else T.train [r0] []

/-- One round of the inner loop of `CVTrain`: `if (i == j) { continue; }`,
then `tr_reader.push_back(reader_list_[j])`. -/
def cvPush (reader_list_ : List ReaderPtr) (i : Nat) (tr_reader : List ReaderPtr) (j : Nat) :
    List ReaderPtr :=
  if i = j then tr_reader
  else
    match reader_list_[j]? with
    | some r => tr_reader ++ [r]
    | none => tr_reader

/-- The inner loop of `CVTrain`, which builds `tr_reader` for fold `i`. -/
def cvTrainReaders (reader_list_ : List ReaderPtr) (i : Nat) : List ReaderPtr :=
  (List.range reader_list_.length).foldl (cvPush reader_list_ i) []

/-- The body of the loop of `Trainer::CVTrain` for fold `i`. -/
def Trainer.cvFold (T : Trainer Row R M Met) (i : Nat) : Run Row R M Met Unit := do
  Exec.call (Call.printf (i + 1) T.reader_list_.length)
  let tr_reader := cvTrainReaders T.reader_list_ i
  match T.reader_list_[i]? with
  | none => Exec.stop Stop.outOfBounds
  | some ri =>
    let te_reader := [ri]
    if i ≠ 0 then do
      Exec.call Call.Model_Reset
      Exec.write fun s => { s with model_ := T.Model_Reset s.model_ }
    T.train tr_reader te_reader

/-- `Trainer::CVTrain`. -/
def Trainer.CVTrain (T : Trainer Row R M Met) : Run Row R M Met Unit :=
  Exec.forEach T.cvFold (List.range T.reader_list_.length)

end TrainerCode

/-- A `CrossEntropyLoss` as the `Loss` that the trainer calls through
`loss_`; `Predict` is inherited from `Loss`, outside the sources, and is a
parameter. -/
def CrossEntropyLoss.toLoss {Row R M : Type} [LinearOrderedField R]
    (self : CrossEntropyLoss Row R M) (lm : Libm R) (sh : Shards)
    (Predict : DMatrix Row R → M → List R → Except Fault (List R)) : Loss Row R M where
  Evalute := fun pred label => (self.Evalute lm sh pred label).result
  CalcGrad := fun matrix model => (self.CalcGrad lm sh (some matrix) model).result
  Predict := Predict

/-! ## Vocabulary of the theorems

Predicates on runs and on their call logs, and the call logs that the
theorems compare the runs with. -/

namespace Exec

variable {C σ α : Type}

/-- From every memory, `m` returns, and the calls it makes that satisfy `P`
are exactly `X`. -/
def Yields (m : Exec C σ α) (P : C → Bool) (X : List C) : Prop :=
  ∀ s, (∃ a, (m s).val = .ok a) ∧ (m s).calls.filter P = X

/-- From no memory does `m` stop with `e`. -/
def NeverStops (m : Exec C σ α) (e : Stop) : Prop := ∀ s, (m s).val ≠ .error e

/-- From every memory, the call log of `m` satisfies `Q`, whether `m` returns
or stops. -/
def Always (m : Exec C σ α) (Q : List C → Prop) : Prop := ∀ s, Q (m s).calls

end Exec

section Vocabulary

variable {Row R M Met : Type}

/-- The collaborators return on the batch `matrix`: `CalcGrad` returns from
every model; `Predict` returns from every model and every buffer that has one
slot per row, and leaves the buffer's length as it was; on what it wrote,
`Accumulate` and `Evalute` return. -/
def Trainer.ReturnsOn (T : Trainer Row R M Met) (matrix : DMatrix Row R) : Prop :=
  (∀ model, ∃ model1, T.loss_.CalcGrad matrix model = .ok model1) ∧
  (∀ model pred, pred.length = matrix.row_length →
    ∃ pred1, T.loss_.Predict matrix model pred = .ok pred1 ∧ pred1.length = pred.length ∧
      (∀ c, ∃ c1, T.metric_.Accumulate c matrix.Y pred1 = .ok c1) ∧
      ∃ e, T.loss_.Evalute pred1 matrix.Y = .ok e)

/-- The collaborators return on every batch with rows of every reader of the
list. -/
def Trainer.ReturnsOnReaders (T : Trainer Row R M Met) (reader : List ReaderPtr) : Prop :=
  ∀ r ∈ reader, ∀ m ∈ T.data r, m.row_length ≠ 0 → T.ReturnsOn m

/-- The batches a pass gets from a reader with stream `ms`: those before the
first `Samples` call that returns 0. -/
def yields (ms : List (DMatrix Row R)) : List (DMatrix Row R) :=
  ms.takeWhile fun m => decide (m.row_length ≠ 0)

/-- The rows a pass over the readers gets in total. -/
def totalRows (T : Trainer Row R M Met) (reader : List ReaderPtr) : Nat :=
  ((reader.flatMap fun r => yields (T.data r)).map fun m => m.row_length).sum

/-- The calls of the `while` loop of `CalcGrad_Update` on a reader with
stream `ms`: one `Samples` and one `Loss.CalcGrad` per batch, then the
`Samples` call that returns 0. -/
def gradWhileCalls (r : ReaderPtr) (ms : List (DMatrix Row R)) : List (Call Row R) :=
  (yields ms).flatMap (fun m => [Call.Reader_Samples r m.row_length, Call.Loss_CalcGrad m])
    ++ [Call.Reader_Samples r 0]

/-- The calls of one gradient-update pass: for each reader one `Reset`, then
the calls of its `while` loop. -/
def gradPassCalls (T : Trainer Row R M Met) (reader : List ReaderPtr) : List (Call Row R) :=
  Call.CalcGrad_Update reader ::
    reader.flatMap fun r => Call.Reader_Reset r :: gradWhileCalls r (T.data r)

/-- The `Loss.CalcGrad` calls of one gradient-update pass. -/
def gradCalls (T : Trainer Row R M Met) (tr : List ReaderPtr) : List (Call Row R) :=
  tr.flatMap fun r => (yields (T.data r)).map Call.Loss_CalcGrad

/-- The calls whose arguments are values computed during the run. -/
def Call.carriesValues : Call Row R → Bool
  | .Loss_Predict _ _ => true
  | .Loss_Evalute _ _ => true
  | .Metric_Accumulate _ _ => true
  | .Metric_Set _ => true
  | .show_train_info _ _ _ _ _ _ => true
  | _ => false

/-- The `Samples` calls of the `while` loop of `CalcLoss_Metric`. -/
def evalWhileFrame (r : ReaderPtr) (ms : List (DMatrix Row R)) : List (Call Row R) :=
  (yields ms).map (fun m => Call.Reader_Samples r m.row_length) ++ [Call.Reader_Samples r 0]

/-- The calls of one evaluation pass, those that carry computed values left
out. -/
def evalPassFrame (T : Trainer Row R M Met) (reader : List ReaderPtr) : List (Call Row R) :=
  Call.CalcLoss_Metric reader ::
    (reader.flatMap fun r => Call.Reader_Reset r :: evalWhileFrame r (T.data r)) ++
    [Call.Metric_GetMetric]

/-- The calls of `show_head_info`. -/
def headInfoCalls (validate : Bool) : List (Call Row R) :=
  Call.show_head_info validate :: Call.Metric_type ::
    (if validate then [Call.Metric_type] else [])

/-- The calls of one epoch, those that carry computed values left out. -/
def epochFrame (T : Trainer Row R M Met) (tr te : List ReaderPtr) : List (Call Row R) :=
  gradPassCalls T tr ++
    (if T.quiet_ then [] else
      evalPassFrame T tr ++ (if te.isEmpty then [] else evalPassFrame T te))

/-- The calls of `train`, those that carry computed values left out. -/
def trainFrame (T : Trainer Row R M Met) (tr te : List ReaderPtr) : List (Call Row R) :=
  Call.train tr te ::
    ((if T.quiet_ then [] else headInfoCalls (!te.isEmpty)) ++
      (List.replicate T.epoch_ (epochFrame T tr te)).flatten)

/-- The calls of fold `i` of `CVTrain`, those that carry computed values left
out. -/
def cvFoldFrame (T : Trainer Row R M Met) (i : Nat) : List (Call Row R) :=
  Call.printf (i + 1) T.reader_list_.length ::
    ((if i = 0 then [] else [Call.Model_Reset]) ++
      trainFrame T (T.reader_list_.eraseIdx i) (T.reader_list_[i]?).toList)

/-- The calls of `CVTrain`, those that carry computed values left out. -/
def cvTrainFrame (T : Trainer Row R M Met) : List (Call Row R) :=
  (List.range T.reader_list_.length).flatMap (cvFoldFrame T)

/-- The call enters a pass: `CalcGrad_Update` or `CalcLoss_Metric`. -/
def Call.isPass : Call Row R → Bool
  | .CalcGrad_Update _ => true
  | .CalcLoss_Metric _ => true
  | _ => false

/-- The call belongs to evaluation: `Predict`, `Evalute` or a call into the
metric. -/
def Call.isEvaluation : Call Row R → Bool
  | .Loss_Predict _ _ => true
  | .Loss_Evalute _ _ => true
  | .Metric_Accumulate _ _ => true
  | .Metric_Set _ => true
  | .Metric_GetMetric => true
  | .Metric_type => true
  | _ => false

/-- The call enters `train`, resets the model or mutates it. -/
def Call.isModelStep : Call Row R → Bool
  | .train _ _ => true
  | .Model_Reset => true
  | .Loss_CalcGrad _ => true
  | _ => false

/-- The passes one epoch enters, in order. -/
def epochPasses (quiet : Bool) (tr te : List ReaderPtr) : List (Call Row R) :=
  if quiet then [Call.CalcGrad_Update tr]
  else if te.isEmpty then [Call.CalcGrad_Update tr, Call.CalcLoss_Metric tr]
  else [Call.CalcGrad_Update tr, Call.CalcLoss_Metric tr, Call.CalcLoss_Metric te]

/-- The buffer `pred` has exactly `n` slots, where `n` is the non-zero count
that the last `Samples` call returned. -/
def sizedFor (last : Option Nat) (pred : List R) : Bool :=
  match last with
  | some n => n != 0 && pred.length == n
  | none => false

/-- Scan a call log, remembering the count the last `Samples` call returned:
at every `Predict`, `Accumulate` and `Evalute` call the prediction buffer is
sized for that count. -/
def bufferExact : Option Nat → List (Call Row R) → Bool
  | _, [] => true
  | _, .Reader_Samples _ n :: cs => bufferExact (some n) cs
  | last, .Loss_Predict _ pred :: cs => sizedFor last pred && bufferExact last cs
  | last, .Metric_Accumulate _ pred :: cs => sizedFor last pred && bufferExact last cs
  | last, .Loss_Evalute pred _ :: cs => sizedFor last pred && bufferExact last cs
  | last, _ :: cs => bufferExact last cs

/-- The log passes `bufferExact` whatever came before it. -/
def BufOK (X : List (Call Row R)) : Prop := ∀ last, bufferExact last X = true

/-- The sum of the counts that the `Samples` calls of a log returned. -/
def sumCounts : List (Call Row R) → Nat
  | [] => 0
  | .Reader_Samples _ n :: cs => n + sumCounts cs
  | _ :: cs => sumCounts cs

/-- The sum of what the `Evalute` calls of a log returned. -/
def sumEvals [Zero R] [Add R] (loss : Loss Row R M) : List (Call Row R) → R
  | [] => 0
  | .Loss_Evalute pred label :: cs =>
    (match loss.Evalute pred label with
      | .ok e => e
      | .error _ => 0) + sumEvals loss cs
  | _ :: cs => sumEvals loss cs

/-- The value of the loops of `CalcLoss_Metric` as a function of the model and
of the batches they get. -/
def evalVal [Zero R] [Add R] (loss : Loss Row R M) (metric : Metric R Met) (model : M) :
    List (DMatrix Row R) → EvalLocals R → Except Stop (EvalLocals R)
  | [], L => .ok L
  | m :: rest, L =>
    if m.row_length = 0 then .ok L
    else
      match loss.Predict m model (fitPred L.pred m.row_length) with
      | .error f => .error (Stop.in_Loss f)
      | .ok pred1 =>
        match metric.Accumulate L.counters m.Y pred1 with
        | .error f => .error (Stop.in_Metric f)
        | .ok counters =>
          match loss.Evalute pred1 m.Y with
          | .error f => .error (Stop.in_Loss f)
          | .ok e =>
            evalVal loss metric model rest
              ⟨L.count_sample + m.row_length, L.loss_val + e, counters, pred1⟩

/-- The call is a `Samples` call. -/
def Call.isSamples : Call Row R → Bool
  | .Reader_Samples _ _ => true
  | _ => false

/-- The call is a `Loss.Evalute` call. -/
def Call.isEvalute : Call Row R → Bool
  | .Loss_Evalute _ _ => true
  | _ => false

/-- The batches a pass over the readers gets: reader by reader in list order,
for each reader its batches in stream order. -/
def passBatches (T : Trainer Row R M Met) (reader : List ReaderPtr) : List (DMatrix Row R) :=
  reader.flatMap fun r => yields (T.data r)

/-- The prediction buffer of batch `m` (`pred_batch`): what `Predict` on `m`
and the model leaves in the buffer, which it gets as the batch before left it,
fitted to the rows of `m`. -/
def predAfter [Zero R] (loss : Loss Row R M) (model : M) (pred : List R) (m : DMatrix Row R) :
    List R :=
  match loss.Predict m model (fitPred pred m.row_length) with
  | .ok pred1 => pred1
  | .error _ => fitPred pred m.row_length

/-- One call `Loss.Evalute(pred_batch, labels_batch)` per batch, in the order
of the batches; `pred` is the buffer before the first of them. -/
def evaluteCalls [Zero R] (loss : Loss Row R M) (model : M) :
    List (DMatrix Row R) → List R → List (Call Row R)
  | [], _ => []
  | m :: rest, pred =>
    Call.Loss_Evalute (predAfter loss model pred m) m.Y ::
      evaluteCalls loss model rest (predAfter loss model pred m)

/-- The value of `Loss.Evalute(pred_batch, labels_batch)` for every batch, in
the order of the batches (0 where the call stops). -/
def batchLosses [Zero R] (loss : Loss Row R M) (model : M) :
    List (DMatrix Row R) → List R → List R
  | [], _ => []
  | m :: rest, pred =>
    (match loss.Evalute (predAfter loss model pred m) m.Y with
      | .ok e => e
      | .error _ => 0) :: batchLosses loss model rest (predAfter loss model pred m)

/-- The loss that the sample-count accounting claim states: the sum over
every batch of every reader of `Loss.Evalute(pred_batch, labels_batch)`,
divided by the sum of the row counts of these batches. -/
def CalcLoss_spec [Field R] (T : Trainer Row R M Met) (reader : List ReaderPtr) (model : M) : R :=
  (batchLosses T.loss_ model (passBatches T reader) []).sum / (totalRows T reader : R)

end Vocabulary

/-! ## A concrete trainer, to instantiate the theorems -/

/-- A batch of `n` rows, all labelled `1`. -/
def exampleBatch (n : Nat) : DMatrix Unit ℚ :=
  ⟨n, List.replicate n (), List.replicate n 1, List.replicate n 1⟩

/-- A loss whose calls always return. -/
def exampleLoss : Loss Unit ℚ ℚ where
  Evalute := fun pred _ => .ok pred.sum
  CalcGrad := fun matrix model => .ok (model + matrix.row_length)
  Predict := fun _ model pred => .ok (pred.map fun _ => model)

/-- A metric that counts the labels it is shown. -/
def exampleMetric : Metric ℚ Counters where
  Accumulate := fun c Y _ => .ok { c with real_pos_example := c.real_pos_example + Y.length }
  Set := fun c _ => c
  GetMetric := fun c => c.real_pos_example
  type := "count"

/-- A trainer with two epochs and three readers, of batch sizes `2, 3`, then
`1`, then `2, 0, 5`. -/
def exampleTrainer (quiet : Bool) : Trainer Unit ℚ ℚ Counters where
  epoch_ := 2
  quiet_ := quiet
  loss_ := exampleLoss
  metric_ := exampleMetric
  Model_Reset := fun _ => 0
  reader_list_ := [0, 1, 2]
  data := fun r =>
    if r = 0 then [exampleBatch 2, exampleBatch 3]
    else if r = 1 then [exampleBatch 1]
    else [exampleBatch 2, exampleBatch 0, exampleBatch 5]

/-- The memory before training. -/
def exampleMem : Mem Unit ℚ ℚ Counters := ⟨0, ⟨0, 0, 0, 0⟩, fun _ => []⟩

/-- A loss whose `Evalute` is not proportional to the number of rows: the
square of the sum of the predictions. -/
def accountingLoss : Loss Unit ℚ ℚ where
  Evalute := fun pred _ => .ok (pred.sum * pred.sum)
  CalcGrad := fun matrix model => .ok (model + matrix.row_length)
  Predict := fun _ model pred => .ok (pred.map fun _ => model)

/-- The example trainer, not quiet, with `accountingLoss` as its loss. -/
def accountingTrainer : Trainer Unit ℚ ℚ Counters :=
  { exampleTrainer false with loss_ := accountingLoss }

/-- The trainer `accountingTrainer` with, behind every reader, the
concatenation of the batches that a pass over the readers `0, 1, 2` of
`accountingTrainer` gets. -/
def concatenatedTrainer : Trainer Unit ℚ ℚ Counters :=
  { accountingTrainer with
    data := fun _ => [exampleBatch 2, exampleBatch 3, exampleBatch 1, exampleBatch 2] }

/-- A memory whose model predicts 1 for every row. -/
def trainedMem : Mem Unit ℚ ℚ Counters := ⟨1, ⟨0, 0, 0, 0⟩, fun _ => []⟩

/-! ## Runs: how the outcome of a composed run is computed -/

namespace Exec

variable {C σ α β : Type}

theorem bind_eq (m : Exec C σ α) (f : α → Exec C σ β) : (m >>= f) = andThen m f := rfl

theorem pure_eq (a : α) : (pure a : Exec C σ α) = ret a := rfl

theorem andThen_ok {m : Exec C σ α} {f : α → Exec C σ β} {s : σ} {a : α}
    (h : (m s).val = .ok a) :
    andThen m f s =
      ⟨(m s).calls ++ (f a (m s).mem).calls, (f a (m s).mem).mem, (f a (m s).mem).val⟩ := by
  simp [andThen, h]

theorem andThen_error {m : Exec C σ α} {f : α → Exec C σ β} {s : σ} {e : Stop}
    (h : (m s).val = .error e) :
    andThen m f s = ⟨(m s).calls, (m s).mem, .error e⟩ := by
  simp [andThen, h]

theorem andThen_call (c : C) (f : Unit → Exec C σ β) (s : σ) :
    andThen (call c) f s = ⟨c :: (f () s).calls, (f () s).mem, (f () s).val⟩ := rfl

theorem andThen_write (g : σ → σ) (f : Unit → Exec C σ β) (s : σ) :
    andThen (write g) f s = f () (g s) := rfl

theorem andThen_ret (a : α) (f : α → Exec C σ β) (s : σ) : andThen (ret a) f s = f a s := rfl

theorem andThen_read (f : σ → Exec C σ β) (s : σ) : andThen read f s = f s s := rfl

theorem yields_ret (a : α) (P : C → Bool) : Yields (ret a : Exec C σ α) P [] :=
  fun _ => ⟨⟨a, rfl⟩, rfl⟩

theorem yields_andThen {m : Exec C σ α} {f : α → Exec C σ β} {P : C → Bool} {X Y : List C}
    (hm : Yields m P X) (hf : ∀ a, Yields (f a) P Y) : Yields (andThen m f) P (X ++ Y) := by
  intro s
  obtain ⟨⟨a, ha⟩, hX⟩ := hm s
  obtain ⟨⟨b, hb⟩, hY⟩ := hf a (m s).mem
  rw [andThen_ok ha]
  exact ⟨⟨b, hb⟩, by simp [hX, hY]⟩

theorem yields_forEach {ι : Type} {body : ι → Exec C σ Unit} {P : C → Bool}
    {g : ι → List C} (xs : List ι) (h : ∀ x ∈ xs, Yields (body x) P (g x)) :
    Yields (forEach body xs) P (xs.flatMap g) := by
  induction xs with
  | nil => exact yields_ret () P
  | cons x xs ih =>
    rw [List.flatMap_cons]
    exact yields_andThen (h x (by simp)) fun _ => ih fun y hy => h y (by simp [hy])

theorem yields_forEachAcc {ι : Type} {body : ι → α → Exec C σ α} {P : C → Bool}
    {g : ι → List C} (xs : List ι) (h : ∀ x ∈ xs, ∀ acc, Yields (body x acc) P (g x)) :
    ∀ acc, Yields (forEachAcc body xs acc) P (xs.flatMap g) := by
  induction xs with
  | nil => intro acc; exact yields_ret acc P
  | cons x xs ih =>
    intro acc
    rw [List.flatMap_cons]
    exact yields_andThen (h x (by simp) acc) fun acc1 => ih (fun y hy => h y (by simp [hy])) acc1

theorem neverStops_andThen {m : Exec C σ α} {f : α → Exec C σ β} {e : Stop}
    (hm : NeverStops m e) (hf : ∀ a, NeverStops (f a) e) : NeverStops (andThen m f) e := by
  intro s
  cases h : (m s).val with
  | ok a => rw [andThen_ok h]; exact hf a _
  | error e1 =>
    rw [andThen_error h]
    intro h1
    apply hm s
    rw [h]
    simpa using h1

theorem neverStops_forEach {ι : Type} {body : ι → Exec C σ Unit} {e : Stop}
    (h : ∀ x, NeverStops (body x) e) (xs : List ι) : NeverStops (forEach body xs) e := by
  induction xs with
  | nil => intro s h1; cases h1
  | cons x xs ih => exact neverStops_andThen (h x) fun _ => ih

theorem neverStops_forEachAcc {ι : Type} {body : ι → α → Exec C σ α} {e : Stop}
    (h : ∀ x acc, NeverStops (body x acc) e) (xs : List ι) :
    ∀ acc, NeverStops (forEachAcc body xs acc) e := by
  induction xs with
  | nil => intro acc s h1; cases h1
  | cons x xs ih => intro acc; exact neverStops_andThen (h x acc) fun acc1 => ih acc1

theorem neverStops_call (c : C) (e : Stop) : NeverStops (call c : Exec C σ Unit) e := by
  intro s h; cases h

theorem neverStops_write (g : σ → σ) (e : Stop) : NeverStops (write g : Exec C σ Unit) e := by
  intro s h; cases h

theorem neverStops_read (e : Stop) : NeverStops (read : Exec C σ σ) e := by
  intro s h; cases h

theorem neverStops_ret (a : α) (e : Stop) : NeverStops (ret a : Exec C σ α) e := by
  intro s h; cases h

theorem andThen_calls (m : Exec C σ α) (f : α → Exec C σ β) (s : σ) :
    (andThen m f s).calls = (m s).calls ∨
    ∃ a, (m s).val = .ok a ∧ (andThen m f s).calls = (m s).calls ++ (f a (m s).mem).calls := by
  cases h : (m s).val with
  | ok a => exact Or.inr ⟨a, rfl, by rw [andThen_ok h]⟩
  | error e => exact Or.inl (by rw [andThen_error h])

theorem always_andThen {m : Exec C σ α} {f : α → Exec C σ β} {Q : List C → Prop}
    (happ : ∀ a b, Q a → Q b → Q (a ++ b)) (hm : Always m Q) (hf : ∀ a, Always (f a) Q) :
    Always (andThen m f) Q := by
  intro s
  rcases andThen_calls m f s with h | ⟨a, _, h⟩
  · rw [h]; exact hm s
  · rw [h]; exact happ _ _ (hm s) (hf a _)

theorem always_forEachAcc {ι : Type} {body : ι → α → Exec C σ α} {Q : List C → Prop}
    (hnil : Q []) (happ : ∀ a b, Q a → Q b → Q (a ++ b))
    (h : ∀ x acc, Always (body x acc) Q) (xs : List ι) :
    ∀ acc, Always (forEachAcc body xs acc) Q := by
  induction xs with
  | nil => intro acc s; exact hnil
  | cons x xs ih => intro acc; exact always_andThen happ (h x acc) fun acc1 => ih acc1

end Exec

/-! ## The cross-entropy loss -/

section LossTheorems

variable {R : Type} [LinearOrderedField R] {Row M : Type}

theorem gapShards_partition (T W : Nat) (hW : 0 < W) : gapShards.Partition T W := by
  refine ⟨by simp [gapShards], ?_, ?_, ?_⟩
  · intro i hi
    have : i + 1 ≠ W := by omega
    simp [gapShards, this]
  · have h : W - 1 + 1 = W := by omega
    simp only [gapShards, h, if_true]
    exact Nat.div_add_mod T W
  · intro i _
    simp only [gapShards]
    split
    · nlinarith [Nat.zero_le (T / W), Nat.zero_le (T % W)]
    · nlinarith [Nat.zero_le (T / W)]

theorem Evalute_spec_eq (lm : Libm R) (pred label : List R) :
    Evalute_spec lm pred label = (rowLosses lm pred label).sum := by
  rfl

theorem forRange_evalute (lm : Libm R) (pred label : List R) (n : Nat) :
    ∀ (acc : R) (s : Nat), s + n ≤ pred.length → s + n ≤ label.length →
      forRange (ce_evalute_step lm pred label) acc s n =
        .ok (acc + (((rowLosses lm pred label).drop s).take n).sum) := by
  induction n with
  | zero => intro acc s _ _; simp [forRange]
  | succ n ih =>
    intro acc s hp hl
    have hsp : s < pred.length := by omega
    have hsl : s < label.length := by omega
    have hlen : s < (rowLosses lm pred label).length := by
      simp [rowLosses]; omega
    have hstep : ce_evalute_step lm pred label acc s =
        .ok (acc + ce_row_loss lm label[s] pred[s]) := by
      simp [ce_evalute_step, List.getElem?_eq_getElem hsp, List.getElem?_eq_getElem hsl]
    have hget : (rowLosses lm pred label)[s] = ce_row_loss lm label[s] pred[s] := by
      simp [rowLosses]
    rw [forRange, hstep]
    simp only
    rw [ih _ _ (by omega) (by omega)]
    rw [List.drop_eq_getElem_cons hlen, List.take_succ_cons, List.sum_cons, hget, add_assoc]

theorem runWorkers_ok {α : Type} (job : Nat → Except Fault α) (g : Nat → α) (l : List Nat)
    (h : ∀ i ∈ l, job i = .ok (g i)) : runWorkers job l = .ok (l.map g) := by
  induction l with
  | nil => rfl
  | cons i is ih =>
    have hi := h i (by simp)
    have his := ih (fun j hj => h j (by simp [hj]))
    simp [runWorkers, hi, his]

theorem foldl_add_eq_sum (l : List R) (a : R) :
    l.foldl (fun val s => val + s) a = a + l.sum := by
  induction l generalizing a with
  | nil => simp
  | cons x xs ih => simp [ih, add_assoc]

theorem sum_segments (terms : List R) (b : Nat → Nat) (hmono : ∀ i, b i ≤ b (i + 1))
    (h0 : b 0 = 0) (W : Nat) :
    ((List.range W).map fun i => ((terms.drop (b i)).take (b (i + 1) - b i)).sum).sum =
      (terms.take (b W)).sum := by
  induction W with
  | zero => simp [h0]
  | succ k ih =>
    rw [List.range_succ, List.map_append, List.sum_append, ih]
    have hk := hmono k
    have hb : b (k + 1) = b k + (b (k + 1) - b k) := by omega
    conv_rhs => rw [hb, List.take_add, List.sum_append]
    simp

theorem cut_facts (sh : Shards) (T W : Nat) (hW : 1 ≤ W) (hp : sh.Partition T W) :
    cut sh T W 0 = 0 ∧ cut sh T W W = T ∧ (∀ i, cut sh T W i ≤ cut sh T W (i + 1)) ∧
    (∀ i, i < W →
      sh.getStart T W i = cut sh T W i ∧ sh.getEnd T W i = cut sh T W (i + 1)) := by
  obtain ⟨h0, hadj, hend, hle⟩ := hp
  have hSE : ∀ i, i < W → sh.getStart T W i = cut sh T W i ∧
      sh.getEnd T W i = cut sh T W (i + 1) := by
    intro i hi
    refine ⟨by simp [cut, hi], ?_⟩
    by_cases h : i + 1 < W
    · simp [cut, h, hadj i (by omega)]
    · have : i = W - 1 := by omega
      subst this
      simp [cut, h, hend]
  refine ⟨by simp [cut, show 0 < W from hW, h0], by simp [cut], ?_, hSE⟩
  intro i
  by_cases hi : i < W
  · rw [← (hSE i hi).1, ← (hSE i hi).2]; exact hle i hi
  · have h1 : ¬ i + 1 < W := by omega
    simp [cut, hi, h1]

theorem cut_le (sh : Shards) (T W : Nat) (hW : 1 ≤ W) (hp : sh.Partition T W) (i : Nat)
    (hi : i ≤ W) : cut sh T W i ≤ T := by
  obtain ⟨_, hT, hmono, _⟩ := cut_facts sh T W hW hp
  have hm : Monotone (cut sh T W) := monotone_nat_of_le_succ hmono
  calc cut sh T W i ≤ cut sh T W W := hm hi
    _ = T := hT

theorem ce_evalute_thread_ok (lm : Libm R) (sh : Shards) (pred label : List R) (W : Nat)
    (hW : 1 ≤ W) (hp : sh.Partition pred.length W) (hlen : pred.length ≤ label.length)
    (i : Nat) (hi : i < W) :
    ce_evalute_thread lm pred label (sh.getStart pred.length W i) (sh.getEnd pred.length W i) =
      .ok ((((rowLosses lm pred label).drop (cut sh pred.length W i)).take
        (cut sh pred.length W (i + 1) - cut sh pred.length W i)).sum) := by
  obtain ⟨_, _, hmono, hSE⟩ := cut_facts sh pred.length W hW hp
  have hle := cut_le sh pred.length W hW hp (i + 1) hi
  have hm := hmono i
  rw [(hSE i hi).1, (hSE i hi).2, ce_evalute_thread, if_neg (by omega),
    forRange_evalute lm pred label _ 0 _ (by omega) (by omega), zero_add]

theorem Evalute_result_eq (self : CrossEntropyLoss Row R M) (lm : Libm R)
    (sh : Shards) (pred label : List R) (hne : pred ≠ [])
    (hlen : label.length = pred.length) (hW : 1 ≤ self.threadNumber_)
    (hp : sh.Partition pred.length self.threadNumber_) :
    (self.Evalute lm sh pred label).result = .ok (Evalute_spec lm pred label) := by
  have hl : label ≠ [] := by
    intro h; rw [h] at hlen; exact hne (List.length_eq_zero.mp hlen.symm)
  obtain ⟨h0, hT, hmono, _⟩ := cut_facts sh pred.length _ hW hp
  have hrun := runWorkers_ok
    (fun i => ce_evalute_thread lm pred label (sh.getStart pred.length self.threadNumber_ i)
      (sh.getEnd pred.length self.threadNumber_ i))
    (fun i => (((rowLosses lm pred label).drop (cut sh pred.length self.threadNumber_ i)).take
        (cut sh pred.length self.threadNumber_ (i + 1) -
          cut sh pred.length self.threadNumber_ i)).sum)
    (List.range self.threadNumber_)
    (fun i hi => ce_evalute_thread_ok lm sh pred label _ hW hp (by omega) i
      (List.mem_range.mp hi))
  have hfull : (rowLosses lm pred label).take pred.length = rowLosses lm pred label := by
    apply List.take_of_length_le
    simp [rowLosses, hlen]
  simp only [CrossEntropyLoss.Evalute, List.isEmpty_iff, hne, hl, if_false, hrun,
    foldl_add_eq_sum, zero_add]
  rw [sum_segments _ _ hmono h0, hT, hfull, Evalute_spec_eq]

/-- C4 (loss additivity of `CrossEntropyLoss::Evalute`): over exact
arithmetic, for non-empty `pred` and `label` of equal length and `W ≥ 1`
workers whose shard bounds satisfy the partition contract, `Evalute` returns
the single-threaded sum over all rows of `log1p(exp(-y_i * pred_i))`, with
`y_i = 1` if `label_i > 0` and `-1` otherwise; the value is not normalised and
does not depend on `W`.  The label `0` counts as negative. -/
theorem Evalute_eq_single_threaded (self : CrossEntropyLoss Row R M) (lm : Libm R)
    (sh : Shards) (pred label : List R) (hne : pred ≠ [])
    (hlen : label.length = pred.length) (hW : 1 ≤ self.threadNumber_)
    (hp : sh.Partition pred.length self.threadNumber_) :
    (self.Evalute lm sh pred label).result = .ok (Evalute_spec lm pred label) ∧
    labelSign (0 : R) = -1 :=
  ⟨Evalute_result_eq self lm sh pred label hne hlen hW hp, by simp [labelSign]⟩

end LossTheorems

/-- `Evalute_eq_single_threaded` at the predictions `[0, 0, 0, 0, 0, 0]` and
the labels `[1, -1, 1, 1, 1, -1]`, over the reals with two workers: the loss is
`6 * log 2`. -/
theorem Evalute_six_log_two :
    ([0, 0, 0, 0, 0, 0] : List ℝ) ≠ [] ∧
    gapShards.Partition 6 2 ∧
    ((CrossEntropyLoss.mk 2 (Score.mk (fun _ _ _ => 0) (fun _ m _ _ => m)) false :
        CrossEntropyLoss Unit ℝ Unit).Evalute
      (Libm.mk Real.exp (fun x => Real.log (1 + x))) gapShards
      [0, 0, 0, 0, 0, 0] [1, -1, 1, 1, 1, -1]).result = .ok (6 * Real.log 2) := by
  refine ⟨by simp, gapShards_partition 6 2 (by norm_num), ?_⟩
  rw [(Evalute_eq_single_threaded _ _ gapShards [0, 0, 0, 0, 0, 0] [1, -1, 1, 1, 1, -1]
    (by simp) (by simp) (by simp) (gapShards_partition _ _ (by norm_num))).1]
  congr 1
  simp [Evalute_spec]
  norm_num
  ring

theorem labelSign_cases {R : Type} [LinearOrderedField R] (label : R) :
    labelSign label = 1 ∨ labelSign label = -1 := by
  unfold labelSign
  split <;> simp

theorem ce_partial_gradient_eq (label s : ℝ) :
    ce_partial_gradient (Libm.mk Real.exp (fun x => Real.log (1 + x))) label s =
      -(labelSign label) * (Real.exp (-(labelSign label) * s) /
        (1 + Real.exp (-(labelSign label) * s))) := by
  have hE : 0 < Real.exp (-(labelSign label) * s) := Real.exp_pos _
  simp only [ce_partial_gradient]
  generalize Real.exp (-(labelSign label) * s) = E at hE
  have h1 : (1 : ℝ) + E ≠ 0 := by linarith
  have h2 : E ≠ 0 := hE.ne.symm
  have h3 : (1 : ℝ) + 1 / E = (1 + E) / E := by
    rw [add_div, div_self h2, add_comm]
  rw [h3, div_div_eq_mul_div, mul_div_assoc]

/-- C10 (the partial gradient is the derivative of the row loss): over the
reals, for every score `s` and every label, with `y` the label's sign, the
value `-y / (1 + 1 / exp(-y * s))` that `ce_gradient_thread` computes is the
derivative at `s` of the row loss `log(1 + exp(-y * s))` that
`ce_evalute_thread` sums; its sign is opposite to that of `y`, and its
absolute value lies strictly between 0 and 1. -/
theorem ce_partial_gradient_is_derivative (label s : ℝ) :
    HasDerivAt (fun t => ce_row_loss (Libm.mk Real.exp (fun x => Real.log (1 + x))) label t)
      (ce_partial_gradient (Libm.mk Real.exp (fun x => Real.log (1 + x))) label s) s ∧
    ce_partial_gradient (Libm.mk Real.exp (fun x => Real.log (1 + x))) label s
      * labelSign label < 0 ∧
    0 < |ce_partial_gradient (Libm.mk Real.exp (fun x => Real.log (1 + x))) label s| ∧
    |ce_partial_gradient (Libm.mk Real.exp (fun x => Real.log (1 + x))) label s| < 1 := by
  have hE : 0 < Real.exp (-(labelSign label) * s) := Real.exp_pos _
  have hq0 : 0 < Real.exp (-(labelSign label) * s) / (1 + Real.exp (-(labelSign label) * s)) :=
    div_pos hE (by linarith)
  have hq1 : Real.exp (-(labelSign label) * s) / (1 + Real.exp (-(labelSign label) * s)) < 1 := by
    rw [div_lt_one (by linarith)]; linarith
  have habs : |labelSign label| = 1 := by
    rcases labelSign_cases label with h | h <;> rw [h] <;> simp
  have hsq : labelSign label * labelSign label = 1 := by
    rcases labelSign_cases label with h | h <;> rw [h] <;> norm_num
  have hpgabs : |ce_partial_gradient (Libm.mk Real.exp (fun x => Real.log (1 + x))) label s| =
      Real.exp (-(labelSign label) * s) / (1 + Real.exp (-(labelSign label) * s)) := by
    rw [ce_partial_gradient_eq, abs_mul, abs_neg, habs, one_mul, abs_of_pos hq0]
  refine ⟨?_, ?_, ?_, ?_⟩
  · rw [ce_partial_gradient_eq]
    simp only [ce_row_loss]
    have h1 : HasDerivAt (fun t : ℝ => -(labelSign label) * t) (-(labelSign label)) s := by
      simpa using (hasDerivAt_id s).const_mul (-(labelSign label))
    have h2 := (h1.exp).const_add 1
    have h3 := h2.log (by linarith)
    convert h3 using 1
    ring
  · rw [ce_partial_gradient_eq]
    generalize Real.exp (-(labelSign label) * s) / (1 + Real.exp (-(labelSign label) * s)) = q
      at hq0
    have : -labelSign label * q * labelSign label = -(labelSign label * labelSign label) * q := by
      ring
    rw [this, hsq]
    linarith
  · rw [hpgabs]; exact hq0
  · rw [hpgabs]; exact hq1

section LossChecks

variable {R : Type} [LinearOrderedField R] {Row M : Type}

/-- C8, amended (workers of `Evalute` are infallible on valid input): for
`pred` and `label` that pass the entry checks of `Evalute` (both non-empty)
with `label` at least as long as `pred`, and `W ≥ 1` workers whose shard
bounds satisfy the partition contract over `[0, pred.size())`, every worker
passes its check `end_idx >= start_idx`, reads `pred` and `label` only within
their bounds, and returns. -/
theorem ce_evalute_workers_infallible (lm : Libm R) (sh : Shards) (pred label : List R)
    (W : Nat) (_hpred : pred ≠ []) (_hlabel : label ≠ [])
    (hlen : pred.length ≤ label.length) (hW : 1 ≤ W) (hp : sh.Partition pred.length W) :
    ∀ i, i < W →
      sh.getStart pred.length W i ≤ sh.getEnd pred.length W i ∧
      (∀ j, sh.getStart pred.length W i ≤ j → j < sh.getEnd pred.length W i →
        j < pred.length ∧ j < label.length) ∧
      ∃ v, ce_evalute_thread lm pred label (sh.getStart pred.length W i)
        (sh.getEnd pred.length W i) = .ok v := by
  intro i hi
  obtain ⟨_, _, _, hSE⟩ := cut_facts sh pred.length W hW hp
  have hle := cut_le sh pred.length W hW hp (i + 1) hi
  rw [← (hSE i hi).2] at hle
  refine ⟨hp.2.2.2 i hi, fun j _ hj => ⟨by omega, by omega⟩, _,
    ce_evalute_thread_ok lm sh pred label W hW hp hlen i hi⟩

/-- `ce_evalute_workers_infallible` at two predictions, three labels and two
workers. -/
theorem ce_evalute_workers_infallible_example :
    ([0, 0] : List ℚ) ≠ [] ∧ ([1, 1, 1] : List ℚ) ≠ [] ∧
    ∀ i, i < 2 →
      gapShards.getStart 2 2 i ≤ gapShards.getEnd 2 2 i ∧
      (∀ j, gapShards.getStart 2 2 i ≤ j → j < gapShards.getEnd 2 2 i → j < 2 ∧ j < 3) ∧
      ∃ v, ce_evalute_thread (Libm.mk (fun x : ℚ => x) (fun x => x)) [0, 0] [1, 1, 1]
        (gapShards.getStart 2 2 i) (gapShards.getEnd 2 2 i) = .ok v :=
  ⟨by simp, by simp,
    ce_evalute_workers_infallible (Libm.mk (fun x : ℚ => x) (fun x => x)) gapShards
      [0, 0] [1, 1, 1] 2 (by simp) (by simp) (by simp) (by norm_num)
      (gapShards_partition 2 2 (by norm_num))⟩

/-- C8 fails as stated: the predictions `[0, 0]` and the labels `[1]` pass
the entry checks of `Evalute`, the shard bounds of one worker satisfy the
partition contract, and the worker reads `label[1]`, outside the bounds of
`label`. -/
theorem ce_evalute_thread_short_label :
    ([0, 0] : List ℚ) ≠ [] ∧ ([1] : List ℚ) ≠ [] ∧ gapShards.Partition 2 1 ∧
    ce_evalute_thread (Libm.mk (fun x : ℚ => x) (fun x => x)) [0, 0] [1]
      (gapShards.getStart 2 1 0) (gapShards.getEnd 2 1 0) = .error Fault.outOfBounds ∧
    ((CrossEntropyLoss.mk 1 (Score.mk (fun _ _ _ => 0) (fun _ m _ _ => m)) false :
        CrossEntropyLoss Unit ℚ Unit).Evalute (Libm.mk (fun x : ℚ => x) (fun x => x))
      gapShards [0, 0] [1]).result = .error Fault.outOfBounds := by
  refine ⟨by simp, by simp, gapShards_partition 2 1 (by norm_num), ?_, ?_⟩
  · simp [ce_evalute_thread, gapShards, forRange, ce_evalute_step]
  · simp [CrossEntropyLoss.Evalute, runWorkers, List.range_succ, ce_evalute_thread, gapShards,
      forRange, ce_evalute_step]

/-- C7 fails as stated: with `threadNumber_ = 0`, `Evalute` on one prediction
and one label returns `0`, and `CalcGrad` on a batch of one row returns
leaving the model as it was; neither is rejected. -/
theorem zero_workers_not_rejected :
    (0 : Nat) ≤ 0 ∧
    ((CrossEntropyLoss.mk 0 (Score.mk (fun _ _ _ => 0) (fun _ m _ _ => m + 1)) false :
        CrossEntropyLoss Unit ℚ Nat).Evalute (Libm.mk (fun x : ℚ => x) (fun x => x))
      gapShards [5] [1]).result = .ok 0 ∧
    ((CrossEntropyLoss.mk 0 (Score.mk (fun _ _ _ => 0) (fun _ m _ _ => m + 1)) false :
        CrossEntropyLoss Unit ℚ Nat).CalcGrad (Libm.mk (fun x : ℚ => x) (fun x => x))
      gapShards (some ⟨1, [()], [1], [1]⟩) 7).result = .ok 7 := by
  refine ⟨le_refl 0, ?_, ?_⟩
  · simp [CrossEntropyLoss.Evalute, runWorkers]
  · simp [CrossEntropyLoss.CalcGrad, runGradWorkers]

/-- C7, amended (what the entry points check): `Evalute` rejects an empty
`pred` and an empty `label`, and `CalcGrad` a null batch and a batch with
`row_length == 0`, each on a check before any worker is enqueued.  The worker
count is not checked: with `threadNumber_ = 0` and valid input, `Evalute`
enqueues no worker and returns `0`, and `CalcGrad` enqueues no worker and
returns with the model as it was. -/
theorem entry_checks_before_enqueue (self : CrossEntropyLoss Row R M) (lm : Libm R) (sh : Shards) :
    (∀ pred label : List R, pred = [] ∨ label = [] →
      (self.Evalute lm sh pred label).result = .error Fault.check ∧
      (self.Evalute lm sh pred label).enqueued = []) ∧
    (∀ model : M,
      (self.CalcGrad lm sh none model).result = .error Fault.check ∧
      (self.CalcGrad lm sh none model).enqueued = []) ∧
    (∀ (matrix : DMatrix Row R) (model : M), matrix.row_length = 0 →
      (self.CalcGrad lm sh (some matrix) model).result = .error Fault.check ∧
      (self.CalcGrad lm sh (some matrix) model).enqueued = []) ∧
    (self.threadNumber_ = 0 →
      (∀ pred label : List R, pred ≠ [] → label ≠ [] →
        (self.Evalute lm sh pred label).result = .ok 0 ∧
        (self.Evalute lm sh pred label).enqueued = []) ∧
      (∀ (matrix : DMatrix Row R) (model : M), 0 < matrix.row_length →
        (self.CalcGrad lm sh (some matrix) model).result = .ok model ∧
        (self.CalcGrad lm sh (some matrix) model).enqueued = [])) := by
  refine ⟨?_, ?_, ?_, ?_⟩
  · intro pred label h
    by_cases hp : pred = []
    · simp [CrossEntropyLoss.Evalute, hp]
    · have hl : label = [] := h.resolve_left hp
      simp [CrossEntropyLoss.Evalute, hp, hl]
  · intro model
    simp [CrossEntropyLoss.CalcGrad]
  · intro matrix model h
    simp [CrossEntropyLoss.CalcGrad, h]
  · intro hW
    refine ⟨?_, ?_⟩
    · intro pred label hp hl
      simp [CrossEntropyLoss.Evalute, hp, hl, hW, runWorkers, shardsOf]
    · intro matrix model h
      have h0 : ¬ matrix.row_length = 0 := by omega
      simp [CrossEntropyLoss.CalcGrad, h0, hW, runGradWorkers, shardsOf]

/-- `entry_checks_before_enqueue` at an empty `pred` and at a batch without
rows. -/
theorem entry_checks_example :
    ((CrossEntropyLoss.mk 2 (Score.mk (fun _ _ _ => 0) (fun _ m _ _ => m + 1)) false :
        CrossEntropyLoss Unit ℚ Nat).Evalute (Libm.mk (fun x : ℚ => x) (fun x => x))
      gapShards [] [1]).result = .error Fault.check ∧
    ((CrossEntropyLoss.mk 2 (Score.mk (fun _ _ _ => 0) (fun _ m _ _ => m + 1)) false :
        CrossEntropyLoss Unit ℚ Nat).CalcGrad (Libm.mk (fun x : ℚ => x) (fun x => x))
      gapShards (some ⟨0, [], [], []⟩) 7).enqueued = [] :=
  have h := entry_checks_before_enqueue
    (CrossEntropyLoss.mk 2 (Score.mk (fun _ _ _ => 0) (fun _ m _ _ => m + 1)) false :
      CrossEntropyLoss Unit ℚ Nat) (Libm.mk (fun x : ℚ => x) (fun x => x)) gapShards
  ⟨(h.1 [] [1] (Or.inl rfl)).1, (h.2.2.1 ⟨0, [], [], []⟩ 7 rfl).2⟩

end LossChecks

/-! ## The cross-entropy loss as the trainer's loss -/

section LossReturns

variable {R : Type} [LinearOrderedField R] {Row M Met : Type}

theorem forRange_gradient (lm : Libm R) (matrix : DMatrix Row R) (score_func : Score Row R M)
    (is_norm : Bool) (hwf : matrix.WellFormed) (n : Nat) :
    ∀ (model : M) (s : Nat), s + n ≤ matrix.row_length →
      ∃ model1, forRange (ce_gradient_step lm matrix score_func is_norm) model s n =
        .ok model1 := by
  obtain ⟨hrow, hY, hnorm⟩ := hwf
  induction n with
  | zero => intro model s _; exact ⟨model, rfl⟩
  | succ n ih =>
    intro model s hs
    have h1 : s < matrix.row.length := by omega
    have h2 : s < matrix.Y.length := by omega
    have h3 : s < matrix.norm.length := by omega
    obtain ⟨model1, hstep⟩ : ∃ model1,
        ce_gradient_step lm matrix score_func is_norm model s = .ok model1 := by
      cases is_norm <;>
        simp [ce_gradient_step, List.getElem?_eq_getElem h1, List.getElem?_eq_getElem h2,
          List.getElem?_eq_getElem h3]
    rw [forRange, hstep]
    exact ih model1 (s + 1) (by omega)

theorem runGradWorkers_ok (job : Nat → M → Except Fault M) (l : List Nat)
    (h : ∀ i ∈ l, ∀ model, ∃ model1, job i model = .ok model1) :
    ∀ model, ∃ model1, runGradWorkers job model l = .ok model1 := by
  induction l with
  | nil => intro model; exact ⟨model, rfl⟩
  | cons i is ih =>
    intro model
    obtain ⟨model1, h1⟩ := h i (by simp) model
    obtain ⟨model2, h2⟩ := ih (fun j hj => h j (by simp [hj])) model1
    exact ⟨model2, by simp [runGradWorkers, h1, h2]⟩

theorem CalcGrad_returns (self : CrossEntropyLoss Row R M) (lm : Libm R) (sh : Shards)
    (matrix : DMatrix Row R) (hwf : matrix.WellFormed) (h0 : matrix.row_length ≠ 0)
    (hW : 1 ≤ self.threadNumber_) (hp : sh.Partition matrix.row_length self.threadNumber_)
    (model : M) :
    ∃ model1, (self.CalcGrad lm sh (some matrix) model).result = .ok model1 := by
  obtain ⟨_, _, hmono, hSE⟩ := cut_facts sh matrix.row_length _ hW hp
  have hjob : ∀ i ∈ List.range self.threadNumber_, ∀ mdl : M, ∃ model1,
      ce_gradient_thread lm matrix mdl self.score_func_ self.norm_
        (sh.getStart matrix.row_length self.threadNumber_ i)
        (sh.getEnd matrix.row_length self.threadNumber_ i) = .ok model1 := by
    intro i hi mdl
    have hi1 : i < self.threadNumber_ := List.mem_range.mp hi
    have hle := cut_le sh matrix.row_length _ hW hp (i + 1) hi1
    have hm := hmono i
    rw [(hSE i hi1).1, (hSE i hi1).2, ce_gradient_thread, if_neg (by omega)]
    exact forRange_gradient lm matrix self.score_func_ self.norm_ hwf _ mdl _ (by omega)
  obtain ⟨model1, h1⟩ := runGradWorkers_ok _ _ hjob model
  exact ⟨model1, by simp [CrossEntropyLoss.CalcGrad, h0, h1]⟩

/-- The hypothesis of the trainer theorems holds for the cross-entropy loss:
with at least one worker and shard bounds that satisfy the partition contract,
on a well-formed batch with rows, `CalcGrad` and `Evalute` return, provided
`Predict` and `Accumulate` do. -/
theorem toLoss_returnsOn (T : Trainer Row R M Met) (self : CrossEntropyLoss Row R M)
    (lm : Libm R) (sh : Shards)
    (Predict : DMatrix Row R → M → List R → Except Fault (List R))
    (hloss : T.loss_ = self.toLoss lm sh Predict)
    (hW : 1 ≤ self.threadNumber_) (hsh : ∀ n, sh.Partition n self.threadNumber_)
    (matrix : DMatrix Row R) (hwf : matrix.WellFormed) (h0 : matrix.row_length ≠ 0)
    (hPredict : ∀ model pred, pred.length = matrix.row_length →
      ∃ pred1, Predict matrix model pred = .ok pred1 ∧ pred1.length = pred.length)
    (hAcc : ∀ c pred, ∃ c1, T.metric_.Accumulate c matrix.Y pred = .ok c1) :
    T.ReturnsOn matrix := by
  refine ⟨?_, ?_⟩
  · intro model
    rw [hloss]
    exact CalcGrad_returns self lm sh matrix hwf h0 hW (hsh _) model
  · intro model pred hlen
    obtain ⟨pred1, hp1, hl1⟩ := hPredict model pred hlen
    rw [hloss]
    refine ⟨pred1, hp1, hl1, fun c => hAcc c pred1, ?_⟩
    have hne : pred1 ≠ [] := by
      intro h; rw [h] at hl1; simp at hl1; omega
    have hY : matrix.Y.length = pred1.length := by rw [hwf.2.1, hl1, hlen]
    exact ⟨_, Evalute_result_eq self lm sh pred1 matrix.Y hne hY hW (hsh _)⟩

end LossReturns

/-! ## The trainer -/

section TrainerTheorems

variable {Row R M Met : Type}

/-! ### The calls of the passes, of `train` and of `CVTrain`

When the collaborators return, so does each of these functions, and the calls
it makes whose arguments are not computed values are those of its frame. -/

theorem Reader_Samples_nil (r : ReaderPtr) (s : Mem Row R M Met) :
    Reader_Samples r [] s = ⟨[Call.Reader_Samples r 0], s, .ok 0⟩ := rfl

theorem Reader_Samples_cons (r : ReaderPtr) (m : DMatrix Row R) (rest : List (DMatrix Row R))
    (s : Mem Row R M Met) :
    Reader_Samples r (m :: rest) s =
      ⟨[Call.Reader_Samples r m.row_length],
        { s with cursor := Function.update s.cursor r rest }, .ok m.row_length⟩ := rfl

theorem gradWhile_yields (T : Trainer Row R M Met) (r : ReaderPtr) (P : Call Row R → Bool)
    (ms : List (DMatrix Row R)) (h : ∀ m ∈ ms, m.row_length ≠ 0 → T.ReturnsOn m) :
    Exec.Yields (gradWhile T r ms) P ((gradWhileCalls r ms).filter P) := by
  induction ms with
  | nil =>
    intro s
    exact ⟨⟨(), rfl⟩, rfl⟩
  | cons m rest ih =>
    intro s
    have ih1 := ih (fun m1 h1 => h m1 (by simp [h1]))
    by_cases h0 : m.row_length = 0
    · refine ⟨⟨(), ?_⟩, ?_⟩
      · simp [gradWhile, Reader_Samples_cons, Reader_Samples_nil, Exec.pure_eq, Exec.ret,
          Exec.bind_eq, Exec.andThen, Exec.write, Exec.call, h0, Exec.pure_eq, Exec.ret]
      · simp [gradWhile, Reader_Samples_cons, Reader_Samples_nil, Exec.pure_eq, Exec.ret,
          Exec.bind_eq, Exec.andThen, Exec.write, Exec.call, h0, Exec.pure_eq, Exec.ret,
          gradWhileCalls, yields]
    · obtain ⟨model1, hg⟩ := (h m (by simp) h0).1 s.model_
      obtain ⟨⟨a, ha⟩, hc⟩ := ih1 ⟨model1, s.metric, Function.update s.cursor r rest⟩
      refine ⟨⟨a, ?_⟩, ?_⟩
      · simp [gradWhile, Reader_Samples_cons, Reader_Samples_nil, Exec.pure_eq, Exec.ret,
          Exec.bind_eq, Exec.andThen, Exec.write, Exec.call, h0, Loss_CalcGrad, Exec.read, hg, ha]
      · simp [gradWhile, Reader_Samples_cons, Reader_Samples_nil, Exec.pure_eq, Exec.ret,
          Exec.bind_eq, Exec.andThen, Exec.write, Exec.call, h0, Loss_CalcGrad, Exec.read, hg, ha,
          hc, gradWhileCalls, yields, List.filter_cons]

theorem gradReader_yields (T : Trainer Row R M Met) (P : Call Row R → Bool) (r : ReaderPtr)
    (h : ∀ m ∈ T.data r, m.row_length ≠ 0 → T.ReturnsOn m) :
    Exec.Yields (T.gradReader r) P
      ((Call.Reader_Reset r :: gradWhileCalls r (T.data r)).filter P) := by
  intro s
  obtain ⟨⟨a, ha⟩, hc⟩ := gradWhile_yields T r P (T.data r) h
    ⟨s.model_, s.metric, Function.update s.cursor r (T.data r)⟩
  refine ⟨⟨a, ?_⟩, ?_⟩
  · simp [Trainer.gradReader, Exec.bind_eq, Exec.andThen, Reader_Reset, Exec.call, Exec.write,
      Exec.read, ha]
  · simp [Trainer.gradReader, Exec.bind_eq, Exec.andThen, Reader_Reset, Exec.call, Exec.write,
      Exec.read, ha, hc, List.filter_cons]

theorem isEmpty_eq_false {α : Type} {l : List α} (h : l ≠ []) : l.isEmpty = false := by
  cases l with
  | nil => exact absurd rfl h
  | cons _ _ => rfl

theorem CalcGrad_Update_yields (T : Trainer Row R M Met) (reader : List ReaderPtr)
    (P : Call Row R → Bool) (hne : reader ≠ []) (h : T.ReturnsOnReaders reader) :
    Exec.Yields (T.CalcGrad_Update reader) P ((gradPassCalls T reader).filter P) := by
  have hloop := Exec.yields_forEach reader fun r hr => gradReader_yields T P r (h r hr)
  intro s
  obtain ⟨⟨a, ha⟩, hc⟩ := hloop s
  have hemp := isEmpty_eq_false hne
  refine ⟨⟨a, ?_⟩, ?_⟩
  · simp [Trainer.CalcGrad_Update, Exec.bind_eq, Exec.andThen, Exec.call, hemp, ha]
  · simp [Trainer.CalcGrad_Update, Exec.bind_eq, Exec.andThen, Exec.call, hemp, ha, hc,
      gradPassCalls, List.filter_cons, List.filter_flatMap]

theorem fitPred_length [Zero R] (pred : List R) (tmp : Nat) :
    (fitPred pred tmp).length = tmp := by
  unfold fitPred
  split
  · simp [resize]; omega
  · rename_i hh; simp at hh; exact hh.symm

theorem evalWhile_yields [Field R] (T : Trainer Row R M Met) (r : ReaderPtr)
    (P : Call Row R → Bool)
    (hP : ∀ c : Call Row R, c.carriesValues = true → P c = false)
    (ms : List (DMatrix Row R)) (h : ∀ m ∈ ms, m.row_length ≠ 0 → T.ReturnsOn m) :
    ∀ L, Exec.Yields (evalWhile T r ms L) P ((evalWhileFrame r ms).filter P) := by
  induction ms with
  | nil =>
    intro L s
    exact ⟨⟨L, rfl⟩, rfl⟩
  | cons m rest ih =>
    intro L s
    have ih1 := ih (fun m1 h1 => h m1 (by simp [h1]))
    by_cases h0 : m.row_length = 0
    · refine ⟨⟨L, ?_⟩, ?_⟩
      · simp [evalWhile, Reader_Samples_cons, Reader_Samples_nil, Exec.pure_eq, Exec.ret,
          Exec.bind_eq, Exec.andThen, Exec.write, Exec.call, h0, Exec.pure_eq, Exec.ret]
      · simp [evalWhile, Reader_Samples_cons, Reader_Samples_nil, Exec.pure_eq, Exec.ret,
          Exec.bind_eq, Exec.andThen, Exec.write, Exec.call, h0, Exec.pure_eq, Exec.ret,
          evalWhileFrame, yields]
    · have hlen : (fitPred L.pred m.row_length).length = m.row_length := fitPred_length _ _
      obtain ⟨pred1, hp, _, hacc, e, he⟩ := (h m (by simp) h0).2 s.model_ _ hlen
      obtain ⟨c1, hc1⟩ := hacc L.counters
      obtain ⟨⟨a, ha⟩, hc⟩ := ih1
        ⟨L.count_sample + m.row_length, L.loss_val + e, c1, pred1⟩
        ⟨s.model_, s.metric, Function.update s.cursor r rest⟩
      have hP1 := hP (Call.Loss_Predict m (fitPred L.pred m.row_length)) rfl
      have hP2 := hP (Call.Metric_Accumulate m.Y pred1) rfl
      have hP3 := hP (Call.Loss_Evalute pred1 m.Y) rfl
      refine ⟨⟨a, ?_⟩, ?_⟩
      · simp [evalWhile, Reader_Samples_cons, Reader_Samples_nil, Exec.pure_eq, Exec.ret,
          Exec.bind_eq, Exec.andThen, Exec.write, Exec.call, h0, Loss_Predict, Metric_Accumulate,
          Loss_Evalute, Exec.read, hp, hc1, he, ha, Exec.pure_eq, Exec.ret]
      · simp [evalWhile, Reader_Samples_cons, Reader_Samples_nil, Exec.pure_eq, Exec.ret,
          Exec.bind_eq, Exec.andThen, Exec.write, Exec.call, h0, Loss_Predict, Metric_Accumulate,
          Loss_Evalute, Exec.read, hp, hc1, he, ha, hc, Exec.pure_eq, Exec.ret, evalWhileFrame,
          yields, List.filter_cons, hP1, hP2, hP3]

theorem evalReader_yields [Field R] (T : Trainer Row R M Met) (P : Call Row R → Bool)
    (hP : ∀ c : Call Row R, c.carriesValues = true → P c = false) (r : ReaderPtr)
    (h : ∀ m ∈ T.data r, m.row_length ≠ 0 → T.ReturnsOn m) (L : EvalLocals R) :
    Exec.Yields (T.evalReader r L) P
      ((Call.Reader_Reset r :: evalWhileFrame r (T.data r)).filter P) := by
  intro s
  obtain ⟨⟨a, ha⟩, hc⟩ := evalWhile_yields T r P hP (T.data r) h L
    ⟨s.model_, s.metric, Function.update s.cursor r (T.data r)⟩
  refine ⟨⟨a, ?_⟩, ?_⟩
  · simp [Trainer.evalReader, Exec.bind_eq, Exec.andThen, Reader_Reset, Exec.call, Exec.write,
      Exec.read, ha]
  · simp [Trainer.evalReader, Exec.bind_eq, Exec.andThen, Reader_Reset, Exec.call, Exec.write,
      Exec.read, ha, hc, List.filter_cons]

theorem CalcLoss_Metric_run [Field R] (T : Trainer Row R M Met) (reader : List ReaderPtr)
    (hne : reader ≠ []) (s : Mem Row R M Met) (L : EvalLocals R)
    (hL : (Exec.forEachAcc T.evalReader reader ⟨0, 0, ⟨0, 0, 0, 0⟩, []⟩ s).val = .ok L) :
    T.CalcLoss_Metric reader s =
      ⟨Call.CalcLoss_Metric reader ::
          ((Exec.forEachAcc T.evalReader reader ⟨0, 0, ⟨0, 0, 0, 0⟩, []⟩ s).calls ++
            [Call.Metric_Set L.counters, Call.Metric_GetMetric]),
        { (Exec.forEachAcc T.evalReader reader ⟨0, 0, ⟨0, 0, 0, 0⟩, []⟩ s).mem with
          metric := T.metric_.Set L.counters
            (Exec.forEachAcc T.evalReader reader ⟨0, 0, ⟨0, 0, 0, 0⟩, []⟩ s).mem.metric },
        .ok (L.loss_val / (L.count_sample : R),
          T.metric_.GetMetric (T.metric_.Set L.counters
            (Exec.forEachAcc T.evalReader reader ⟨0, 0, ⟨0, 0, 0, 0⟩, []⟩ s).mem.metric))⟩ :=
    by
  have hemp := isEmpty_eq_false hne
  simp [Trainer.CalcLoss_Metric, Exec.bind_eq, Exec.andThen, Exec.call, hemp, hL, Exec.write,
    Exec.read, Exec.pure_eq, Exec.ret]

theorem CalcLoss_Metric_yields [Field R] (T : Trainer Row R M Met) (reader : List ReaderPtr)
    (P : Call Row R → Bool) (hP : ∀ c : Call Row R, c.carriesValues = true → P c = false)
    (hne : reader ≠ []) (h : T.ReturnsOnReaders reader) :
    Exec.Yields (T.CalcLoss_Metric reader) P ((evalPassFrame T reader).filter P) := by
  have hloop := Exec.yields_forEachAcc reader
    (fun r hr L => evalReader_yields T P hP r (h r hr) L) ⟨0, 0, ⟨0, 0, 0, 0⟩, []⟩
  intro s
  obtain ⟨⟨a, ha⟩, hc⟩ := hloop s
  have hP1 := hP (Call.Metric_Set a.counters) rfl
  rw [CalcLoss_Metric_run T reader hne s a ha]
  refine ⟨⟨_, rfl⟩, ?_⟩
  simp [hc, evalPassFrame, List.filter_cons, List.filter_flatMap, hP1]

theorem show_head_info_yields (T : Trainer Row R M Met) (P : Call Row R → Bool)
    (validate : Bool) :
    Exec.Yields (T.show_head_info validate) P ((headInfoCalls validate).filter P) := by
  intro s
  cases validate <;>
    exact ⟨⟨(), rfl⟩, by simp [Trainer.show_head_info, Exec.bind_eq, Exec.andThen, Exec.call,
      headInfoCalls, Exec.pure_eq, Exec.ret]⟩

theorem epoch_yields [Field R] (T : Trainer Row R M Met) (tr te : List ReaderPtr)
    (P : Call Row R → Bool)
    (hP : T.quiet_ = false → ∀ c : Call Row R, c.carriesValues = true → P c = false)
    (hne : tr ≠ []) (htr : T.ReturnsOnReaders tr) (hte : T.ReturnsOnReaders te) (n : Nat) :
    Exec.Yields (T.epoch tr te (!te.isEmpty) n) P ((epochFrame T tr te).filter P) := by
  intro s
  obtain ⟨⟨a, ha⟩, hc⟩ := CalcGrad_Update_yields T tr P hne htr s
  cases hq : T.quiet_ with
  | true =>
    refine ⟨⟨(), ?_⟩, ?_⟩
    · simp [Trainer.epoch, Exec.bind_eq, Exec.andThen, ha, hq, Exec.pure_eq, Exec.ret]
    · simp [Trainer.epoch, Exec.bind_eq, Exec.andThen, ha, hq, hc, Exec.pure_eq, Exec.ret,
        epochFrame]
  | false =>
    have hP1 := hP hq
    obtain ⟨⟨b, hb⟩, hcb⟩ :=
      CalcLoss_Metric_yields T tr P hP1 hne htr (T.CalcGrad_Update tr s).mem
    by_cases hte0 : te = []
    · subst hte0
      have hP2 := hP1 (Call.show_train_info b.1 b.2 0 0 false n) rfl
      refine ⟨⟨(), ?_⟩, ?_⟩
      · simp [Trainer.epoch, Exec.bind_eq, Exec.andThen, ha, hq, hb, Exec.pure_eq, Exec.ret,
          Exec.call]
      · simp [Trainer.epoch, Exec.bind_eq, Exec.andThen, ha, hq, hb, hc, hcb, Exec.pure_eq,
          Exec.ret, Exec.call, epochFrame, hP2]
    · have hemp := isEmpty_eq_false hte0
      obtain ⟨⟨d, hd⟩, hcd⟩ := CalcLoss_Metric_yields T te P hP1 hte0 hte
        (T.CalcLoss_Metric tr (T.CalcGrad_Update tr s).mem).mem
      have hP2 := hP1 (Call.show_train_info b.1 b.2 d.1 d.2 true n) rfl
      refine ⟨⟨(), ?_⟩, ?_⟩
      · simp [Trainer.epoch, Exec.bind_eq, Exec.andThen, ha, hq, hb, hd, hemp, Exec.pure_eq,
          Exec.ret, Exec.call]
      · simp [Trainer.epoch, Exec.bind_eq, Exec.andThen, ha, hq, hb, hd, hc, hcb, hcd, hemp,
          Exec.pure_eq, Exec.ret, Exec.call, epochFrame, hP2]

theorem flatMap_const {α β : Type} (l : List α) (X : List β) :
    (l.flatMap fun _ => X) = (List.replicate l.length X).flatten := by
  induction l with
  | nil => rfl
  | cons x xs ih => simp [List.replicate_succ, ih]

theorem train_yields [Field R] (T : Trainer Row R M Met) (tr te : List ReaderPtr)
    (P : Call Row R → Bool)
    (hP : T.quiet_ = false → ∀ c : Call Row R, c.carriesValues = true → P c = false)
    (hne : tr ≠ []) (htr : T.ReturnsOnReaders tr) (hte : T.ReturnsOnReaders te) :
    Exec.Yields (T.train tr te) P ((trainFrame T tr te).filter P) := by
  have hloop := Exec.yields_forEach (List.range T.epoch_)
    (fun n _ => epoch_yields T tr te P hP hne htr hte n)
  rw [flatMap_const, List.length_range] at hloop
  intro s
  cases hq : T.quiet_ with
  | true =>
    obtain ⟨⟨a, ha⟩, hc⟩ := hloop s
    refine ⟨⟨a, ?_⟩, ?_⟩
    · simp [Trainer.train, Exec.bind_eq, Exec.andThen, Exec.call, hq, ha, Exec.pure_eq, Exec.ret]
    · simp [Trainer.train, Exec.bind_eq, Exec.andThen, Exec.call, hq, ha, hc, Exec.pure_eq,
        Exec.ret, trainFrame, List.filter_cons, List.filter_flatten, List.map_replicate]
  | false =>
    obtain ⟨⟨u, hu⟩, hcu⟩ := show_head_info_yields T P (!te.isEmpty) s
    obtain ⟨⟨a, ha⟩, hc⟩ := hloop (T.show_head_info (!te.isEmpty) s).mem
    refine ⟨⟨a, ?_⟩, ?_⟩
    · simp [Trainer.train, Exec.bind_eq, Exec.andThen, Exec.call, hq, ha, hu, Exec.pure_eq,
        Exec.ret]
    · simp [Trainer.train, Exec.bind_eq, Exec.andThen, Exec.call, hq, ha, hu, hc, hcu,
        Exec.pure_eq, Exec.ret, trainFrame, List.filter_cons, List.filter_flatten,
        List.map_replicate]

theorem train_yields_zero [Field R] (T : Trainer Row R M Met) (tr te : List ReaderPtr)
    (P : Call Row R → Bool) (h0 : T.epoch_ = 0) :
    Exec.Yields (T.train tr te) P ((trainFrame T tr te).filter P) := by
  intro s
  obtain ⟨⟨u, hu⟩, hcu⟩ := show_head_info_yields T P (!te.isEmpty) s
  cases hq : T.quiet_ with
  | true =>
    refine ⟨⟨(), ?_⟩, ?_⟩
    · simp [Trainer.train, Exec.bind_eq, Exec.andThen, Exec.call, hq, h0, Exec.forEach,
        Exec.pure_eq, Exec.ret]
    · simp [Trainer.train, Exec.bind_eq, Exec.andThen, Exec.call, hq, h0, Exec.forEach,
        Exec.pure_eq, Exec.ret, trainFrame, List.filter_cons]
  | false =>
    refine ⟨⟨(), ?_⟩, ?_⟩
    · simp [Trainer.train, Exec.bind_eq, Exec.andThen, Exec.call, hq, h0, hu, Exec.forEach,
        Exec.pure_eq, Exec.ret]
    · simp [Trainer.train, Exec.bind_eq, Exec.andThen, Exec.call, hq, h0, hu, hcu, Exec.forEach,
        Exec.pure_eq, Exec.ret, trainFrame, List.filter_cons]

theorem foldl_congr_mem {α β : Type} (f g : β → α → β) (xs : List α)
    (h : ∀ acc, ∀ x ∈ xs, f acc x = g acc x) (a : β) : xs.foldl f a = xs.foldl g a := by
  induction xs generalizing a with
  | nil => rfl
  | cons x xs ih =>
    simp only [List.foldl_cons]
    rw [h a x (by simp)]
    exact ih (fun acc y hy => h acc y (by simp [hy])) _

theorem cvTrainReaders_eq (l : List ReaderPtr) (i : Nat) : cvTrainReaders l i = l.eraseIdx i := by
  induction l using List.reverseRecOn with
  | nil => simp [cvTrainReaders]
  | append_singleton l x ih =>
    unfold cvTrainReaders at ih ⊢
    rw [List.length_append, List.length_singleton, List.range_succ, List.foldl_append]
    have hpre : (List.range l.length).foldl (cvPush (l ++ [x]) i) [] = l.eraseIdx i := by
      rw [← ih]
      apply foldl_congr_mem
      intro acc j hj
      have hj1 : j < l.length := List.mem_range.mp hj
      simp only [cvPush, List.getElem?_append_left hj1]
    rw [hpre]
    simp only [List.foldl_cons, List.foldl_nil, cvPush]
    by_cases hi : i = l.length
    · subst hi
      simp [List.eraseIdx_append_of_length_le, List.eraseIdx_of_length_le]
    · rw [if_neg hi]
      simp only [List.getElem?_concat_length]
      by_cases hlt : i < l.length
      · rw [List.eraseIdx_append_of_lt_length hlt]
      · have hge : l.length ≤ i := by omega
        rw [List.eraseIdx_append_of_length_le hge, List.eraseIdx_of_length_le hge]
        have : i - l.length = (i - l.length - 1) + 1 := by omega
        rw [this]
        simp

theorem ReturnsOnReaders_of_subset (T : Trainer Row R M Met) {a b : List ReaderPtr}
    (hab : ∀ r ∈ a, r ∈ b) (h : T.ReturnsOnReaders b) : T.ReturnsOnReaders a :=
  fun r hr => h r (hab r hr)

theorem cvFold_run [Field R] (T : Trainer Row R M Met) (i : Nat) (hi : i < T.reader_list_.length)
    (s : Mem Row R M Met) :
    T.cvFold i s =
      if i = 0 then
        ⟨Call.printf (i + 1) T.reader_list_.length ::
            (T.train (T.reader_list_.eraseIdx i) [T.reader_list_[i]] s).calls,
          (T.train (T.reader_list_.eraseIdx i) [T.reader_list_[i]] s).mem,
          (T.train (T.reader_list_.eraseIdx i) [T.reader_list_[i]] s).val⟩
      else
        ⟨Call.printf (i + 1) T.reader_list_.length :: Call.Model_Reset ::
            (T.train (T.reader_list_.eraseIdx i) [T.reader_list_[i]]
              { s with model_ := T.Model_Reset s.model_ }).calls,
          (T.train (T.reader_list_.eraseIdx i) [T.reader_list_[i]]
              { s with model_ := T.Model_Reset s.model_ }).mem,
          (T.train (T.reader_list_.eraseIdx i) [T.reader_list_[i]]
              { s with model_ := T.Model_Reset s.model_ }).val⟩ := by
  have hget : T.reader_list_[i]? = some T.reader_list_[i] := List.getElem?_eq_getElem hi
  unfold Trainer.cvFold
  simp only [hget, cvTrainReaders_eq, Exec.bind_eq, Exec.pure_eq]
  by_cases h0 : i = 0
  · simp only [h0, ne_eq, not_true_eq_false, if_false, if_true, Exec.andThen_call,
      Exec.andThen_ret]
  · simp only [h0, ne_eq, not_false_eq_true, if_false, if_true, Exec.andThen_call,
      Exec.andThen_write]

theorem cvFold_yields [Field R] (T : Trainer Row R M Met) (P : Call Row R → Bool)
    (hP : T.quiet_ = false → ∀ c : Call Row R, c.carriesValues = true → P c = false)
    (hk : 2 ≤ T.reader_list_.length ∨ T.epoch_ = 0) (h : T.ReturnsOnReaders T.reader_list_)
    (i : Nat) (hi : i < T.reader_list_.length) :
    Exec.Yields (T.cvFold i) P ((cvFoldFrame T i).filter P) := by
  have htr : T.ReturnsOnReaders (T.reader_list_.eraseIdx i) :=
    ReturnsOnReaders_of_subset T (fun r hr => (List.eraseIdx_sublist _ _).subset hr) h
  have hte : T.ReturnsOnReaders [T.reader_list_[i]] :=
    ReturnsOnReaders_of_subset T (fun r hr => by
      rw [List.mem_singleton] at hr; rw [hr]; exact List.getElem_mem hi) h
  have htrain : Exec.Yields (T.train (T.reader_list_.eraseIdx i) [T.reader_list_[i]]) P
      ((trainFrame T (T.reader_list_.eraseIdx i) [T.reader_list_[i]]).filter P) := by
    rcases hk with hk | h0
    · have hne : T.reader_list_.eraseIdx i ≠ [] := by
        intro h0
        have hl := @List.length_eraseIdx _ T.reader_list_ i
        rw [h0, if_pos hi] at hl
        simp at hl
        omega
      exact train_yields T _ _ P hP hne htr hte
    · exact train_yields_zero T _ _ P h0
  have hget : T.reader_list_[i]? = some T.reader_list_[i] := List.getElem?_eq_getElem hi
  intro s
  rw [cvFold_run T i hi s]
  obtain ⟨⟨a, ha⟩, hc⟩ := htrain s
  obtain ⟨⟨b, hb⟩, hcb⟩ := htrain { s with model_ := T.Model_Reset s.model_ }
  have hfr : cvFoldFrame T i = Call.printf (i + 1) T.reader_list_.length ::
      ((if i = 0 then [] else [Call.Model_Reset]) ++
        trainFrame T (T.reader_list_.eraseIdx i) [T.reader_list_[i]]) := by
    simp only [cvFoldFrame, hget, Option.toList]
  rw [hfr]
  by_cases h0 : i = 0
  · rw [if_pos h0, if_pos h0]
    exact ⟨⟨a, ha⟩, by simp only [List.nil_append, List.filter_cons, hc]⟩
  · rw [if_neg h0, if_neg h0]
    exact ⟨⟨b, hb⟩, by simp only [List.singleton_append, List.filter_cons, hcb]⟩

theorem CVTrain_yields [Field R] (T : Trainer Row R M Met) (P : Call Row R → Bool)
    (hP : T.quiet_ = false → ∀ c : Call Row R, c.carriesValues = true → P c = false)
    (hk : T.reader_list_.length ≠ 1 ∨ T.epoch_ = 0) (h : T.ReturnsOnReaders T.reader_list_) :
    Exec.Yields T.CVTrain P ((cvTrainFrame T).filter P) := by
  unfold Trainer.CVTrain cvTrainFrame
  rw [List.filter_flatMap]
  apply Exec.yields_forEach
  intro i hi
  have hi1 : i < T.reader_list_.length := List.mem_range.mp hi
  exact cvFold_yields T P hP (hk.imp (fun hk1 => by omega) id) h i hi1

theorem Loss_CalcGrad_never (T : Trainer Row R M Met) (m : DMatrix Row R) :
    Exec.NeverStops (Loss_CalcGrad T m) Stop.reader_empty := by
  intro s
  simp only [Loss_CalcGrad, Exec.bind_eq, Exec.andThen_call, Exec.andThen_read]
  cases T.loss_.CalcGrad m s.model_ <;> simp [Exec.write, Exec.stop]

theorem Loss_Predict_never (T : Trainer Row R M Met) (m : DMatrix Row R) (p : List R) :
    Exec.NeverStops (Loss_Predict T m p) Stop.reader_empty := by
  intro s
  simp only [Loss_Predict, Exec.bind_eq, Exec.andThen_call, Exec.andThen_read]
  cases T.loss_.Predict m s.model_ p <;> simp [Exec.pure_eq, Exec.ret, Exec.stop]

theorem Metric_Accumulate_never (T : Trainer Row R M Met) (c : Counters) (Y p : List R) :
    Exec.NeverStops (Metric_Accumulate T c Y p) Stop.reader_empty := by
  intro s
  simp only [Metric_Accumulate, Exec.bind_eq, Exec.andThen_call]
  cases T.metric_.Accumulate c Y p <;> simp [Exec.pure_eq, Exec.ret, Exec.stop]

theorem Loss_Evalute_never (T : Trainer Row R M Met) (p l : List R) :
    Exec.NeverStops (Loss_Evalute T p l) Stop.reader_empty := by
  intro s
  simp only [Loss_Evalute, Exec.bind_eq, Exec.andThen_call]
  cases T.loss_.Evalute p l <;> simp [Exec.pure_eq, Exec.ret, Exec.stop]

theorem Reader_Samples_never (r : ReaderPtr) (ms : List (DMatrix Row R)) :
    Exec.NeverStops (Reader_Samples r ms : Run Row R M Met Nat) Stop.reader_empty := by
  intro s h
  cases ms <;> cases h

theorem gradWhile_never (T : Trainer Row R M Met) (r : ReaderPtr)
    (ms : List (DMatrix Row R)) :
    Exec.NeverStops (gradWhile T r ms) Stop.reader_empty := by
  induction ms with
  | nil =>
    exact Exec.neverStops_andThen (Reader_Samples_never r []) fun _ => Exec.neverStops_ret _ _
  | cons m rest ih =>
    unfold gradWhile
    simp only [Exec.bind_eq, Exec.pure_eq]
    refine Exec.neverStops_andThen (Reader_Samples_never r _) fun _ => ?_
    split
    · exact Exec.neverStops_ret _ _
    · exact Exec.neverStops_andThen (Loss_CalcGrad_never T m) fun _ => ih

theorem evalWhile_never [Field R] (T : Trainer Row R M Met) (r : ReaderPtr)
    (ms : List (DMatrix Row R)) :
    ∀ L, Exec.NeverStops (evalWhile T r ms L) Stop.reader_empty := by
  induction ms with
  | nil =>
    intro L
    exact Exec.neverStops_andThen (Reader_Samples_never r []) fun _ => Exec.neverStops_ret _ _
  | cons m rest ih =>
    intro L
    unfold evalWhile
    simp only [Exec.bind_eq, Exec.pure_eq]
    refine Exec.neverStops_andThen (Reader_Samples_never r _) fun _ => ?_
    split
    · exact Exec.neverStops_ret _ _
    · exact Exec.neverStops_andThen (Loss_Predict_never T m _) fun _ =>
        Exec.neverStops_andThen (Metric_Accumulate_never T _ _ _) fun _ =>
          Exec.neverStops_andThen (Loss_Evalute_never T _ _) fun _ => ih _

theorem gradReader_never (T : Trainer Row R M Met) (r : ReaderPtr) :
    Exec.NeverStops (T.gradReader r) Stop.reader_empty :=
  Exec.neverStops_andThen
    (Exec.neverStops_andThen (Exec.neverStops_call _ _) fun _ => Exec.neverStops_write _ _)
    fun _ => Exec.neverStops_andThen (Exec.neverStops_read _) fun _ => gradWhile_never T r _

theorem evalReader_never [Field R] (T : Trainer Row R M Met) (r : ReaderPtr) (L : EvalLocals R) :
    Exec.NeverStops (T.evalReader r L) Stop.reader_empty :=
  Exec.neverStops_andThen
    (Exec.neverStops_andThen (Exec.neverStops_call _ _) fun _ => Exec.neverStops_write _ _)
    fun _ => Exec.neverStops_andThen (Exec.neverStops_read _) fun _ => evalWhile_never T r _ L

theorem CalcGrad_Update_never (T : Trainer Row R M Met) (reader : List ReaderPtr)
    (hne : reader ≠ []) : Exec.NeverStops (T.CalcGrad_Update reader) Stop.reader_empty := by
  unfold Trainer.CalcGrad_Update
  simp only [Exec.bind_eq, isEmpty_eq_false hne]
  exact Exec.neverStops_andThen (Exec.neverStops_call _ _) fun _ =>
    Exec.neverStops_forEach (gradReader_never T) reader

theorem CalcLoss_Metric_never [Field R] (T : Trainer Row R M Met) (reader : List ReaderPtr)
    (hne : reader ≠ []) : Exec.NeverStops (T.CalcLoss_Metric reader) Stop.reader_empty := by
  unfold Trainer.CalcLoss_Metric
  simp only [Exec.bind_eq, isEmpty_eq_false hne, Exec.pure_eq]
  exact Exec.neverStops_andThen (Exec.neverStops_call _ _) fun _ =>
    Exec.neverStops_andThen (Exec.neverStops_forEachAcc (evalReader_never T) reader _) fun _ =>
      Exec.neverStops_andThen (Exec.neverStops_call _ _) fun _ =>
        Exec.neverStops_andThen (Exec.neverStops_write _ _) fun _ =>
          Exec.neverStops_andThen (Exec.neverStops_call _ _) fun _ =>
            Exec.neverStops_andThen (Exec.neverStops_read _) fun _ => Exec.neverStops_ret _ _

/-- C5 (an empty reader list is fail-fast): `CalcGrad_Update` and
`CalcLoss_Metric` each stop on their check `CHECK_NE(reader.empty(), true)` if
and only if the reader list is empty; they then have made no call but their
own entry (no `Reset`, no `Samples`), the memory (model, metric, readers) is
as it was and no value is returned.  On a non-empty list on which the
collaborators return, both return. -/
theorem empty_reader_list_fails_fast [Field R] (T : Trainer Row R M Met)
    (reader : List ReaderPtr) (s : Mem Row R M Met) :
    ((T.CalcGrad_Update reader s).val = .error Stop.reader_empty ↔ reader = []) ∧
    ((T.CalcLoss_Metric reader s).val = .error Stop.reader_empty ↔ reader = []) ∧
    (reader = [] →
      T.CalcGrad_Update reader s =
        ⟨[Call.CalcGrad_Update []], s, .error Stop.reader_empty⟩ ∧
      T.CalcLoss_Metric reader s =
        ⟨[Call.CalcLoss_Metric []], s, .error Stop.reader_empty⟩) ∧
    (reader ≠ [] → T.ReturnsOnReaders reader →
      (T.CalcGrad_Update reader s).val = .ok () ∧
      ∃ v, (T.CalcLoss_Metric reader s).val = .ok v) := by
  refine ⟨⟨?_, ?_⟩, ⟨?_, ?_⟩, ?_, ?_⟩
  · intro h
    by_contra hne
    exact CalcGrad_Update_never T reader hne s h
  · intro h; subst h; rfl
  · intro h
    by_contra hne
    exact CalcLoss_Metric_never T reader hne s h
  · intro h; subst h; rfl
  · intro h; subst h; exact ⟨rfl, rfl⟩
  · intro hne h
    obtain ⟨⟨a, ha⟩, _⟩ := CalcGrad_Update_yields T reader (fun _ => false) hne h s
    obtain ⟨hb, _⟩ := CalcLoss_Metric_yields T reader (fun _ => false) (fun _ _ => rfl) hne h s
    exact ⟨ha, hb⟩

/-! ### The epoch loop -/

theorem flatMap_nil_const {α β : Type} (l : List α) :
    (l.flatMap fun _ => ([] : List β)) = [] := by
  induction l with
  | nil => rfl
  | cons x xs ih => simp

theorem filter_isPass_gradPassCalls (T : Trainer Row R M Met) (tr : List ReaderPtr) :
    (gradPassCalls T tr).filter Call.isPass = [Call.CalcGrad_Update tr] := by
  simp [gradPassCalls, gradWhileCalls, List.filter_cons, List.filter_flatMap, Call.isPass,
    flatMap_nil_const]

theorem filter_isPass_evalPassFrame (T : Trainer Row R M Met) (tr : List ReaderPtr) :
    (evalPassFrame T tr).filter Call.isPass = [Call.CalcLoss_Metric tr] := by
  simp [evalPassFrame, evalWhileFrame, List.filter_cons, List.filter_flatMap, Call.isPass,
    flatMap_nil_const, List.filter_map, Function.comp_def]

theorem filter_isPass_epochFrame (T : Trainer Row R M Met) (tr te : List ReaderPtr) :
    (epochFrame T tr te).filter Call.isPass = epochPasses T.quiet_ tr te := by
  unfold epochFrame epochPasses
  cases T.quiet_ <;> by_cases hte : te.isEmpty <;>
    simp [hte, filter_isPass_gradPassCalls, filter_isPass_evalPassFrame]

theorem filter_isPass_trainFrame (T : Trainer Row R M Met) (tr te : List ReaderPtr) :
    (trainFrame T tr te).filter Call.isPass =
      (List.replicate T.epoch_ (epochPasses T.quiet_ tr te)).flatten := by
  unfold trainFrame
  rw [List.filter_cons, List.filter_append, List.filter_flatten, List.map_replicate,
    filter_isPass_epochFrame]
  cases T.quiet_ <;> cases te.isEmpty <;> simp [headInfoCalls, Call.isPass]

theorem trainFrame_quiet (T : Trainer Row R M Met) (tr te : List ReaderPtr)
    (hq : T.quiet_ = true) :
    trainFrame T tr te =
      Call.train tr te :: (List.replicate T.epoch_ (gradPassCalls T tr)).flatten := by
  simp [trainFrame, epochFrame, hq]

theorem isEvaluation_gradPassCalls (T : Trainer Row R M Met) (tr : List ReaderPtr) :
    ∀ c ∈ gradPassCalls T tr, c.isEvaluation = false := by
  have h : (gradPassCalls T tr).filter Call.isEvaluation = [] := by
    simp [gradPassCalls, gradWhileCalls, List.filter_cons, List.filter_flatMap,
      Call.isEvaluation, flatMap_nil_const]
  intro c hc
  have := List.filter_eq_nil_iff.mp h c hc
  simpa using this

/-- C1 (single-split epoch loop of `Trainer::train`): for every epoch count,
every non-empty train reader list and every test reader list on which the
collaborators return, `train` returns, and the passes it enters are `epoch_`
repetitions of: the gradient-update pass on the train readers, then, unless
`quiet_`, the evaluation pass on the train readers and, if the test list is
not empty, the evaluation pass on the test readers.  Every gradient-update
pass makes the calls `gradPassCalls`: one `Reset` per train reader followed by
one `Loss.CalcGrad` per batch that `Samples` returns, until it returns 0.
When `quiet_`, these passes are all that `train` does, so it makes no call to
`Predict`, `Evalute` or the metric. -/
theorem train_epoch_loop [Field R] (T : Trainer Row R M Met)
    (train_reader test_reader : List ReaderPtr)
    (s : Mem Row R M Met) (hne : train_reader ≠ [])
    (htr : T.ReturnsOnReaders train_reader) (hte : T.ReturnsOnReaders test_reader) :
    (T.train train_reader test_reader s).val = .ok () ∧
    (T.train train_reader test_reader s).calls.filter Call.isPass =
      (List.replicate T.epoch_ (epochPasses T.quiet_ train_reader test_reader)).flatten ∧
    (∀ s1, (T.CalcGrad_Update train_reader s1).calls = gradPassCalls T train_reader) ∧
    (T.quiet_ = true →
      (T.train train_reader test_reader s).calls =
        Call.train train_reader test_reader ::
          (List.replicate T.epoch_ (gradPassCalls T train_reader)).flatten ∧
      ∀ c ∈ (T.train train_reader test_reader s).calls, c.isEvaluation = false) := by
  refine ⟨?_, ?_, ?_, ?_⟩
  · obtain ⟨⟨a, ha⟩, _⟩ := train_yields T train_reader test_reader (fun _ => false)
      (fun _ _ _ => rfl) hne htr hte s
    exact ha
  · obtain ⟨_, hc⟩ := train_yields T train_reader test_reader Call.isPass
      (fun _ c hc => by cases c <;> first | rfl | cases hc) hne htr hte s
    rw [hc, filter_isPass_trainFrame]
  · intro s1
    obtain ⟨_, hc⟩ := CalcGrad_Update_yields T train_reader (fun _ => true) hne htr s1
    simpa using hc
  · intro hq
    obtain ⟨_, hc⟩ := train_yields T train_reader test_reader (fun _ => true)
      (fun h => by rw [hq] at h; cases h) hne htr hte s
    have hcalls : (T.train train_reader test_reader s).calls =
        Call.train train_reader test_reader ::
          (List.replicate T.epoch_ (gradPassCalls T train_reader)).flatten := by
      rw [← trainFrame_quiet T train_reader test_reader hq]
      simpa using hc
    refine ⟨hcalls, ?_⟩
    intro c hc1
    rw [hcalls] at hc1
    rcases List.mem_cons.mp hc1 with rfl | h1
    · rfl
    · obtain ⟨l, hl, hcl⟩ := List.mem_flatten.mp h1
      rw [List.eq_of_mem_replicate hl] at hcl
      exact isEvaluation_gradPassCalls T train_reader c hcl

/-! ### Cross-validation -/

theorem filter_isModelStep_trainFrame (T : Trainer Row R M Met) (tr te : List ReaderPtr) :
    (trainFrame T tr te).filter Call.isModelStep =
      Call.train tr te :: (List.replicate T.epoch_ (gradCalls T tr)).flatten := by
  have hw : ∀ (r : ReaderPtr) (ys : List (DMatrix Row R)),
      (ys.flatMap fun m => [Call.Reader_Samples r m.row_length, Call.Loss_CalcGrad m]).filter
        Call.isModelStep = ys.map Call.Loss_CalcGrad := by
    intro r ys
    induction ys with
    | nil => rfl
    | cons y ys ih =>
      rw [List.flatMap_cons, List.filter_append, ih]
      simp [List.filter_cons, Call.isModelStep]
  have hg : (gradPassCalls T tr).filter Call.isModelStep = gradCalls T tr := by
    unfold gradPassCalls gradCalls
    rw [List.filter_cons, List.filter_flatMap]
    simp only [Call.isModelStep, Bool.false_eq_true, if_false]
    congr 1
    funext r
    rw [List.filter_cons]
    simp only [Call.isModelStep, Bool.false_eq_true, if_false, gradWhileCalls,
      List.filter_append, hw]
    simp [List.filter_cons, Call.isModelStep]
  have he : ∀ rs, (evalPassFrame T rs).filter Call.isModelStep = [] := by
    intro rs
    simp [evalPassFrame, evalWhileFrame, List.filter_cons, List.filter_flatMap,
      Call.isModelStep, flatMap_nil_const, List.filter_map, Function.comp_def]
  have hep : (epochFrame T tr te).filter Call.isModelStep = gradCalls T tr := by
    unfold epochFrame
    cases T.quiet_ <;> by_cases hte : te.isEmpty <;> simp [hte, hg, he]
  unfold trainFrame
  rw [List.filter_cons, List.filter_append, List.filter_flatten, List.map_replicate, hep]
  cases T.quiet_ <;> cases te.isEmpty <;> simp [headInfoCalls, Call.isModelStep]

/-- C2 (cross-validation fold isolation in `Trainer::CVTrain`): when the
collaborators return (and there is not just one reader, whose only fold would
train on nothing), `CVTrain` returns, and its calls that enter `train`, reset
the model or mutate it are, fold by fold in index order: for a fold `i > 0`
exactly one `Model.Reset`, then the entry into `train`, then the
`Loss.CalcGrad` calls of the fold; for fold 0 the same without the
`Model.Reset`.  So the one `Model.Reset` of fold `i > 0` comes after every
model mutation of fold `i - 1` and before the first of fold `i`.  Fold 0 runs
`train` from the memory it is entered with; a fold `i > 0` runs `train` from
that memory with the model replaced by `Model_Reset` of it, which is the
model's initial state, whatever was trained before, when `Model_Reset` returns
that state from every model. -/
theorem CVTrain_fold_isolation [Field R] (T : Trainer Row R M Met) (s : Mem Row R M Met)
    (hk : T.reader_list_.length ≠ 1) (h : T.ReturnsOnReaders T.reader_list_) :
    (T.CVTrain s).val = .ok () ∧
    (T.CVTrain s).calls.filter Call.isModelStep =
      (List.range T.reader_list_.length).flatMap (fun i =>
        (if i = 0 then [] else [Call.Model_Reset]) ++
          Call.train (T.reader_list_.eraseIdx i) (T.reader_list_[i]?).toList ::
            (List.replicate T.epoch_ (gradCalls T (T.reader_list_.eraseIdx i))).flatten) ∧
    (∀ (hk0 : 0 < T.reader_list_.length) s1,
      T.cvFold 0 s1 =
        ⟨Call.printf 1 T.reader_list_.length ::
            (T.train (T.reader_list_.eraseIdx 0) [T.reader_list_[0]] s1).calls,
          (T.train (T.reader_list_.eraseIdx 0) [T.reader_list_[0]] s1).mem,
          (T.train (T.reader_list_.eraseIdx 0) [T.reader_list_[0]] s1).val⟩) ∧
    (∀ i (hi : i < T.reader_list_.length), 0 < i → ∀ s1,
      T.cvFold i s1 =
        ⟨Call.printf (i + 1) T.reader_list_.length :: Call.Model_Reset ::
            (T.train (T.reader_list_.eraseIdx i) [T.reader_list_[i]]
              { s1 with model_ := T.Model_Reset s1.model_ }).calls,
          (T.train (T.reader_list_.eraseIdx i) [T.reader_list_[i]]
              { s1 with model_ := T.Model_Reset s1.model_ }).mem,
          (T.train (T.reader_list_.eraseIdx i) [T.reader_list_[i]]
              { s1 with model_ := T.Model_Reset s1.model_ }).val⟩) ∧
    (∀ init, (∀ model, T.Model_Reset model = init) →
      ∀ i (hi : i < T.reader_list_.length), 0 < i → ∀ s1,
        T.cvFold i s1 =
          ⟨Call.printf (i + 1) T.reader_list_.length :: Call.Model_Reset ::
              (T.train (T.reader_list_.eraseIdx i) [T.reader_list_[i]]
                { s1 with model_ := init }).calls,
            (T.train (T.reader_list_.eraseIdx i) [T.reader_list_[i]]
                { s1 with model_ := init }).mem,
            (T.train (T.reader_list_.eraseIdx i) [T.reader_list_[i]]
                { s1 with model_ := init }).val⟩) := by
  refine ⟨?_, ?_, ?_, ?_, ?_⟩
  · obtain ⟨⟨a, ha⟩, _⟩ :=
      CVTrain_yields T (fun _ => false) (fun _ _ _ => rfl) (Or.inl hk) h s
    exact ha
  · obtain ⟨_, hc⟩ := CVTrain_yields T Call.isModelStep
      (fun _ c hc => by cases c <;> first | rfl | cases hc) (Or.inl hk) h s
    rw [hc, cvTrainFrame, List.filter_flatMap]
    congr 1
    funext i
    unfold cvFoldFrame
    rw [List.filter_cons, List.filter_append, filter_isModelStep_trainFrame]
    by_cases h0 : i = 0 <;> simp [h0, Call.isModelStep]
  · intro hk0 s1
    rw [cvFold_run T 0 hk0 s1]
    simp
  · intro i hi h0 s1
    rw [cvFold_run T i hi s1, if_neg (by omega)]
  · intro init hinit i hi h0 s1
    rw [cvFold_run T i hi s1, if_neg (by omega), hinit]

/-! ### The prediction buffer -/

theorem bufferExact_append (a b : List (Call Row R)) (hb : BufOK b) :
    ∀ last, bufferExact last a = true → bufferExact last (a ++ b) = true := by
  induction a with
  | nil => intro last _; exact hb last
  | cons c cs ih =>
    intro last h
    cases c <;> simp only [bufferExact, List.cons_append, Bool.and_eq_true] at h ⊢ <;>
      first
      | exact ih _ h
      | exact ⟨h.1, ih _ h.2⟩

theorem BufOK_append (a b : List (Call Row R)) (ha : BufOK a) (hb : BufOK b) :
    BufOK (a ++ b) :=
  fun last => bufferExact_append a b hb last (ha last)

theorem BufOK_nil : BufOK ([] : List (Call Row R)) := fun _ => rfl

theorem evalWhile_bufOK [Field R] (T : Trainer Row R M Met)
    (hPredict : ∀ m model p p1, T.loss_.Predict m model p = .ok p1 → p1.length = p.length)
    (r : ReaderPtr) (ms : List (DMatrix Row R)) :
    ∀ L, Exec.Always (evalWhile T r ms L) BufOK := by
  induction ms with
  | nil => intro L s last; rfl
  | cons m rest ih =>
    intro L s last
    by_cases h0 : m.row_length = 0
    · simp [evalWhile, Reader_Samples_cons, Reader_Samples_nil, Exec.pure_eq, Exec.ret,
        Exec.bind_eq, Exec.andThen, Exec.write, Exec.call, h0, Exec.pure_eq, Exec.ret, bufferExact]
    · have hlen := fitPred_length L.pred m.row_length
      cases hp : T.loss_.Predict m s.model_ (fitPred L.pred m.row_length) with
      | error f =>
        simp [evalWhile, Reader_Samples_cons, Reader_Samples_nil, Exec.pure_eq, Exec.ret,
          Exec.bind_eq, Exec.andThen, Exec.write, Exec.call, h0, Exec.pure_eq, Exec.ret,
          bufferExact, Loss_Predict, Exec.read, hp, Exec.stop, sizedFor, hlen]
      | ok p1 =>
        have hl1 : p1.length = m.row_length := by rw [hPredict _ _ _ _ hp, hlen]
        cases hc : T.metric_.Accumulate L.counters m.Y p1 with
        | error f =>
          simp [evalWhile, Reader_Samples_cons, Reader_Samples_nil, Exec.pure_eq, Exec.ret,
            Exec.bind_eq, Exec.andThen, Exec.write, Exec.call, h0, Exec.pure_eq, Exec.ret,
            bufferExact, Loss_Predict, Exec.read, hp, Exec.stop, sizedFor, hlen, hl1,
            Metric_Accumulate, hc]
        | ok c1 =>
          cases he : T.loss_.Evalute p1 m.Y with
          | error f =>
            simp [evalWhile, Reader_Samples_cons, Reader_Samples_nil, Exec.pure_eq, Exec.ret,
              Exec.bind_eq, Exec.andThen, Exec.write, Exec.call, h0, Exec.pure_eq, Exec.ret,
              bufferExact, Loss_Predict, Exec.read, hp, Exec.stop, sizedFor, hlen, hl1,
              Metric_Accumulate, hc, Loss_Evalute, he]
          | ok e =>
            have := ih ⟨L.count_sample + m.row_length, L.loss_val + e, c1, p1⟩
              ⟨s.model_, s.metric, Function.update s.cursor r rest⟩ (some m.row_length)
            simp [evalWhile, Reader_Samples_cons, Reader_Samples_nil, Exec.pure_eq, Exec.ret,
              Exec.bind_eq, Exec.andThen, Exec.write, Exec.call, h0, Exec.pure_eq, Exec.ret,
              bufferExact, Loss_Predict, Exec.read, hp, Exec.stop, sizedFor, hlen, hl1,
              Metric_Accumulate, hc, Loss_Evalute, he, this]

theorem evalReader_bufOK [Field R] (T : Trainer Row R M Met)
    (hPredict : ∀ m model p p1, T.loss_.Predict m model p = .ok p1 → p1.length = p.length)
    (r : ReaderPtr) (L : EvalLocals R) : Exec.Always (T.evalReader r L) BufOK := by
  intro s last
  have := evalWhile_bufOK T hPredict r (T.data r) L
    ⟨s.model_, s.metric, Function.update s.cursor r (T.data r)⟩ last
  cases hv : (evalWhile T r (T.data r) L
      ⟨s.model_, s.metric, Function.update s.cursor r (T.data r)⟩).val <;>
    simp [Trainer.evalReader, Exec.bind_eq, Exec.andThen, Reader_Reset, Exec.call, Exec.write,
      Exec.read, hv, bufferExact, this]

/-- C9 (exact prediction-buffer sizing in `Trainer::CalcLoss_Metric`): when
`Loss.Predict` writes the buffer without changing its length, then in every
run of `CalcLoss_Metric`, whether it returns or stops, at every call of
`Loss.Predict`, `Metric.Accumulate` and `Loss.Evalute` the length of the
prediction buffer is the non-zero count that the last `Samples` call
returned. -/
theorem prediction_buffer_exact [Field R] (T : Trainer Row R M Met)
    (reader : List ReaderPtr) (s : Mem Row R M Met)
    (hPredict : ∀ m model p p1, T.loss_.Predict m model p = .ok p1 → p1.length = p.length) :
    bufferExact none (T.CalcLoss_Metric reader s).calls = true := by
  have hloop := Exec.always_forEachAcc BufOK_nil BufOK_append (evalReader_bufOK T hPredict)
    reader ⟨0, 0, ⟨0, 0, 0, 0⟩, []⟩ s
  cases reader with
  | nil => rfl
  | cons r rs =>
    cases hv : (Exec.forEachAcc T.evalReader (r :: rs) ⟨0, 0, ⟨0, 0, 0, 0⟩, []⟩ s).val with
    | error e =>
      simp only [Trainer.CalcLoss_Metric, Exec.bind_eq, Exec.andThen, Exec.call, hv,
        List.isEmpty_cons, Bool.false_eq_true, if_false, List.singleton_append, bufferExact]
      exact hloop none
    | ok L =>
      rw [CalcLoss_Metric_run T (r :: rs) (by simp) s L hv]
      simp only [bufferExact]
      have h2 : BufOK [(Call.Metric_Set L.counters : Call Row R), Call.Metric_GetMetric] :=
        fun _ => rfl
      exact BufOK_append _ _ hloop h2 none

/-! ### Loss and sample count of an evaluation pass -/

theorem sumCounts_append (a b : List (Call Row R)) :
    sumCounts (a ++ b) = sumCounts a + sumCounts b := by
  induction a with
  | nil => simp [sumCounts]
  | cons c cs ih => cases c <;> simp [sumCounts, ih, Nat.add_assoc]

theorem sumEvals_append [Field R] (loss : Loss Row R M) (a b : List (Call Row R)) :
    sumEvals loss (a ++ b) = sumEvals loss a + sumEvals loss b := by
  induction a with
  | nil => simp [sumEvals]
  | cons c cs ih => cases c <;> simp [sumEvals, ih, add_assoc]

theorem evalWhile_spec [Field R] (T : Trainer Row R M Met) (r : ReaderPtr)
    (ms : List (DMatrix Row R)) :
    ∀ (L : EvalLocals R) (s : Mem Row R M Met),
      (evalWhile T r ms L s).val = evalVal T.loss_ T.metric_ s.model_ ms L ∧
      (evalWhile T r ms L s).mem.model_ = s.model_ ∧
      (evalWhile T r ms L s).mem.metric = s.metric ∧
      ∀ L1, (evalWhile T r ms L s).val = .ok L1 →
        L1.count_sample = L.count_sample + sumCounts (evalWhile T r ms L s).calls ∧
        L1.loss_val = L.loss_val + sumEvals T.loss_ (evalWhile T r ms L s).calls := by
  induction ms with
  | nil =>
    intro L s
    refine ⟨rfl, rfl, rfl, ?_⟩
    intro L1 h
    have : L = L1 := by
      simpa [evalWhile, Reader_Samples_cons, Reader_Samples_nil, Exec.pure_eq, Exec.ret,
        Exec.bind_eq, Exec.andThen, Exec.call, Exec.pure_eq, Exec.ret] using h
    subst this
    simp [evalWhile, Reader_Samples_cons, Reader_Samples_nil, Exec.pure_eq, Exec.ret, Exec.bind_eq,
      Exec.andThen, Exec.call, Exec.pure_eq, Exec.ret, sumCounts, sumEvals]
  | cons m rest ih =>
    intro L s
    by_cases h0 : m.row_length = 0
    · refine ⟨?_, ?_, ?_, ?_⟩
      · simp [evalWhile, Reader_Samples_cons, Reader_Samples_nil, Exec.pure_eq, Exec.ret, evalVal,
          Exec.bind_eq, Exec.andThen, Exec.write, Exec.call, h0, Exec.pure_eq, Exec.ret]
      · simp [evalWhile, Reader_Samples_cons, Reader_Samples_nil, Exec.pure_eq, Exec.ret,
          Exec.bind_eq, Exec.andThen, Exec.write, Exec.call, h0, Exec.pure_eq, Exec.ret]
      · simp [evalWhile, Reader_Samples_cons, Reader_Samples_nil, Exec.pure_eq, Exec.ret,
          Exec.bind_eq, Exec.andThen, Exec.write, Exec.call, h0, Exec.pure_eq, Exec.ret]
      · intro L1 h
        have : L = L1 := by
          simpa [evalWhile, Reader_Samples_cons, Reader_Samples_nil, Exec.pure_eq, Exec.ret,
            Exec.bind_eq, Exec.andThen, Exec.write, Exec.call, h0, Exec.pure_eq, Exec.ret] using h
        subst this
        simp [evalWhile, Reader_Samples_cons, Reader_Samples_nil, Exec.pure_eq, Exec.ret,
          Exec.bind_eq, Exec.andThen, Exec.write, Exec.call, h0, Exec.pure_eq, Exec.ret, sumCounts,
          sumEvals]
    · cases hp : T.loss_.Predict m s.model_ (fitPred L.pred m.row_length) with
      | error f =>
        simp [evalWhile, Reader_Samples_cons, Reader_Samples_nil, Exec.pure_eq, Exec.ret, evalVal,
          Exec.bind_eq, Exec.andThen, Exec.write, Exec.call, h0, Exec.pure_eq, Exec.ret,
          Loss_Predict, Exec.read, hp, Exec.stop]
      | ok p1 =>
        cases hc : T.metric_.Accumulate L.counters m.Y p1 with
        | error f =>
          simp [evalWhile, Reader_Samples_cons, Reader_Samples_nil, Exec.pure_eq, Exec.ret, evalVal,
            Exec.bind_eq, Exec.andThen, Exec.write, Exec.call, h0, Exec.pure_eq, Exec.ret,
            Loss_Predict, Exec.read, hp, Exec.stop, Metric_Accumulate, hc]
        | ok c1 =>
          cases he : T.loss_.Evalute p1 m.Y with
          | error f =>
            simp [evalWhile, Reader_Samples_cons, Reader_Samples_nil, Exec.pure_eq, Exec.ret,
              evalVal, Exec.bind_eq, Exec.andThen, Exec.write, Exec.call, h0, Exec.pure_eq,
              Exec.ret, Loss_Predict, Exec.read, hp, Exec.stop, Metric_Accumulate, hc, Loss_Evalute,
              he]
          | ok e =>
            obtain ⟨i1, i2, i3, i4⟩ := ih
              ⟨L.count_sample + m.row_length, L.loss_val + e, c1, p1⟩
              ⟨s.model_, s.metric, Function.update s.cursor r rest⟩
            refine ⟨?_, ?_, ?_, ?_⟩
            · simp [evalWhile, Reader_Samples_cons, Reader_Samples_nil, Exec.pure_eq, Exec.ret,
                evalVal, Exec.bind_eq, Exec.andThen, Exec.write, Exec.call, h0, Exec.pure_eq,
                Exec.ret, Loss_Predict, Exec.read, hp, Exec.stop, Metric_Accumulate, hc,
                Loss_Evalute, he, i1]
            · simp [evalWhile, Reader_Samples_cons, Reader_Samples_nil, Exec.pure_eq, Exec.ret,
                evalVal, Exec.bind_eq, Exec.andThen, Exec.write, Exec.call, h0, Exec.pure_eq,
                Exec.ret, Loss_Predict, Exec.read, hp, Exec.stop, Metric_Accumulate, hc,
                Loss_Evalute, he, i2]
            · simp [evalWhile, Reader_Samples_cons, Reader_Samples_nil, Exec.pure_eq, Exec.ret,
                evalVal, Exec.bind_eq, Exec.andThen, Exec.write, Exec.call, h0, Exec.pure_eq,
                Exec.ret, Loss_Predict, Exec.read, hp, Exec.stop, Metric_Accumulate, hc,
                Loss_Evalute, he, i3]
            · intro L1 h
              have h1 : (evalWhile T r rest
                  ⟨L.count_sample + m.row_length, L.loss_val + e, c1, p1⟩
                  ⟨s.model_, s.metric, Function.update s.cursor r rest⟩).val = .ok L1 := by
                simpa [evalWhile, Reader_Samples_cons, Reader_Samples_nil, Exec.pure_eq, Exec.ret,
                  evalVal, Exec.bind_eq, Exec.andThen, Exec.write, Exec.call, h0, Exec.pure_eq,
                  Exec.ret, Loss_Predict, Exec.read, hp, Exec.stop, Metric_Accumulate, hc,
                  Loss_Evalute, he] using h
              obtain ⟨j1, j2⟩ := i4 L1 h1
              simp [evalWhile, Reader_Samples_cons, Reader_Samples_nil, Exec.pure_eq, Exec.ret,
                evalVal, Exec.bind_eq, Exec.andThen, Exec.write, Exec.call, h0, Exec.pure_eq,
                Exec.ret, Loss_Predict, Exec.read, hp, Exec.stop, Metric_Accumulate, hc,
                Loss_Evalute, he, h1, sumCounts, sumEvals, j1, j2]
              constructor
              · omega
              · ring

theorem evalVal_yields_append [Field R] (loss : Loss Row R M) (metric : Metric R Met) (model : M)
    (b : List (DMatrix Row R)) (ms : List (DMatrix Row R)) :
    ∀ L : EvalLocals R, evalVal loss metric model (yields ms ++ b) L =
      match evalVal loss metric model ms L with
      | .ok L1 => evalVal loss metric model b L1
      | .error e => .error e := by
  induction ms with
  | nil => intro L; simp [yields, evalVal]
  | cons m rest ih =>
    intro L
    by_cases h0 : m.row_length = 0
    · simp [yields, evalVal, h0]
    · have hy : yields (m :: rest) = m :: yields rest := by simp [yields, h0]
      rw [hy, List.cons_append]
      simp only [evalVal, h0, if_false]
      cases loss.Predict m model (fitPred L.pred m.row_length) with
      | error f => rfl
      | ok p1 =>
        dsimp only
        cases metric.Accumulate L.counters m.Y p1 with
        | error f => rfl
        | ok c1 =>
          dsimp only
          cases loss.Evalute p1 m.Y with
          | error f => rfl
          | ok e => exact ih _

theorem evalReader_spec [Field R] (T : Trainer Row R M Met) (r : ReaderPtr) (L : EvalLocals R)
    (s : Mem Row R M Met) :
    (T.evalReader r L s).val = evalVal T.loss_ T.metric_ s.model_ (T.data r) L ∧
    (T.evalReader r L s).mem.model_ = s.model_ ∧
    (T.evalReader r L s).mem.metric = s.metric ∧
    ∀ L1, (T.evalReader r L s).val = .ok L1 →
      L1.count_sample = L.count_sample + sumCounts (T.evalReader r L s).calls ∧
      L1.loss_val = L.loss_val + sumEvals T.loss_ (T.evalReader r L s).calls := by
  obtain ⟨i1, i2, i3, i4⟩ := evalWhile_spec T r (T.data r) L
    ⟨s.model_, s.metric, Function.update s.cursor r (T.data r)⟩
  have hrun : T.evalReader r L s =
      ⟨Call.Reader_Reset r :: (evalWhile T r (T.data r) L
          ⟨s.model_, s.metric, Function.update s.cursor r (T.data r)⟩).calls,
        (evalWhile T r (T.data r) L
          ⟨s.model_, s.metric, Function.update s.cursor r (T.data r)⟩).mem,
        (evalWhile T r (T.data r) L
          ⟨s.model_, s.metric, Function.update s.cursor r (T.data r)⟩).val⟩ := by
    cases hv : (evalWhile T r (T.data r) L
      ⟨s.model_, s.metric, Function.update s.cursor r (T.data r)⟩).val <;>
    simp [Trainer.evalReader, Exec.bind_eq, Exec.andThen, Reader_Reset, Exec.call, Exec.write,
      Exec.read, hv]
  rw [hrun]
  refine ⟨i1, i2, i3, ?_⟩
  intro L1 h
  obtain ⟨j1, j2⟩ := i4 L1 h
  exact ⟨by simpa [sumCounts] using j1, by simpa [sumEvals] using j2⟩

theorem evalLoop_spec [Field R] (T : Trainer Row R M Met) (rs : List ReaderPtr) :
    ∀ (L : EvalLocals R) (s : Mem Row R M Met),
      (Exec.forEachAcc T.evalReader rs L s).val =
        evalVal T.loss_ T.metric_ s.model_ (rs.flatMap fun r => yields (T.data r)) L ∧
      (Exec.forEachAcc T.evalReader rs L s).mem.model_ = s.model_ ∧
      (Exec.forEachAcc T.evalReader rs L s).mem.metric = s.metric ∧
      ∀ L1, (Exec.forEachAcc T.evalReader rs L s).val = .ok L1 →
        L1.count_sample = L.count_sample +
          sumCounts (Exec.forEachAcc T.evalReader rs L s).calls ∧
        L1.loss_val = L.loss_val +
          sumEvals T.loss_ (Exec.forEachAcc T.evalReader rs L s).calls := by
  induction rs with
  | nil =>
    intro L s
    refine ⟨rfl, rfl, rfl, ?_⟩
    intro L1 h
    have : L = L1 := by simpa [Exec.forEachAcc, Exec.ret] using h
    subst this
    simp [Exec.forEachAcc, Exec.ret, sumCounts, sumEvals]
  | cons r rs ih =>
    intro L s
    obtain ⟨i1, i2, i3, i4⟩ := evalReader_spec T r L s
    rw [List.flatMap_cons, evalVal_yields_append]
    unfold Exec.forEachAcc
    cases hv : (T.evalReader r L s).val with
    | error e =>
      rw [Exec.andThen_error hv]
      rw [hv] at i1
      rw [← i1]
      exact ⟨rfl, i2, i3, fun L1 h => by cases h⟩
    | ok La =>
      rw [Exec.andThen_ok hv]
      rw [hv] at i1
      rw [← i1]
      obtain ⟨k1, k2, k3, k4⟩ := ih La (T.evalReader r L s).mem
      obtain ⟨j1, j2⟩ := i4 La hv
      refine ⟨by rw [k1, i2], by rw [k2, i2], by rw [k3, i3], ?_⟩
      intro L1 h
      obtain ⟨l1, l2⟩ := k4 L1 h
      simp only [sumCounts_append, sumEvals_append]
      constructor
      · rw [l1, j1]; omega
      · rw [l2, j2]; ring

theorem evalVal_count [Field R] (loss : Loss Row R M) (metric : Metric R Met) (model : M)
    (ms : List (DMatrix Row R)) (hnz : ∀ m ∈ ms, m.row_length ≠ 0) :
    ∀ L L1 : EvalLocals R, evalVal loss metric model ms L = .ok L1 →
      L1.count_sample = L.count_sample + (ms.map fun m => m.row_length).sum := by
  induction ms with
  | nil =>
    intro L L1 h
    have : L = L1 := by simpa [evalVal] using h
    subst this
    simp
  | cons m rest ih =>
    intro L L1 h
    have h0 : m.row_length ≠ 0 := hnz m (by simp)
    simp only [evalVal, h0, if_false] at h
    cases hp : loss.Predict m model (fitPred L.pred m.row_length) with
    | error f => rw [hp] at h; cases h
    | ok p1 =>
      rw [hp] at h
      dsimp only at h
      cases hc : metric.Accumulate L.counters m.Y p1 with
      | error f => rw [hc] at h; cases h
      | ok c1 =>
        rw [hc] at h
        dsimp only at h
        cases he : loss.Evalute p1 m.Y with
        | error f => rw [he] at h; cases h
        | ok e =>
          rw [he] at h
          dsimp only at h
          have := ih (fun m1 h1 => hnz m1 (by simp [h1])) _ _ h
          rw [this]
          simp only [List.map_cons, List.sum_cons]
          omega

theorem yields_nonzero (ms : List (DMatrix Row R)) : ∀ m ∈ yields ms, m.row_length ≠ 0 := by
  intro m hm
  have := List.mem_takeWhile_imp hm
  simpa using this

theorem yields_of_nonzero (ms : List (DMatrix Row R)) (h : ∀ m ∈ ms, m.row_length ≠ 0) :
    yields ms = ms := by
  unfold yields
  rw [List.takeWhile_eq_self_iff]
  intro m hm
  simpa using h m hm

theorem flatMap_yields_nonzero (T : Trainer Row R M Met) (reader : List ReaderPtr) :
    ∀ m ∈ reader.flatMap (fun r => yields (T.data r)), m.row_length ≠ 0 := by
  intro m hm
  obtain ⟨r, _, hr⟩ := List.mem_flatMap.mp hm
  exact yields_nonzero _ m hr

theorem CalcLoss_Metric_val [Field R] (T : Trainer Row R M Met) (reader : List ReaderPtr)
    (hne : reader ≠ []) (s : Mem Row R M Met) :
    (T.CalcLoss_Metric reader s).val =
      match evalVal T.loss_ T.metric_ s.model_ (reader.flatMap fun r => yields (T.data r))
          ⟨0, 0, ⟨0, 0, 0, 0⟩, []⟩ with
      | .ok L => .ok (L.loss_val / (L.count_sample : R),
          T.metric_.GetMetric (T.metric_.Set L.counters s.metric))
      | .error e => .error e := by
  obtain ⟨i1, _, i3, _⟩ := evalLoop_spec T reader ⟨0, 0, ⟨0, 0, 0, 0⟩, []⟩ s
  rw [← i1]
  cases hv : (Exec.forEachAcc T.evalReader reader ⟨0, 0, ⟨0, 0, 0, 0⟩, []⟩ s).val with
  | error e =>
    simp [Trainer.CalcLoss_Metric, Exec.bind_eq, Exec.andThen, Exec.call, isEmpty_eq_false hne,
      hv]
  | ok L =>
    rw [CalcLoss_Metric_run T reader hne s L hv, i3]

theorem evaluteCalls_append [Zero R] (loss : Loss Row R M) (model : M)
    (a b : List (DMatrix Row R)) :
    ∀ pred, evaluteCalls loss model (a ++ b) pred =
      evaluteCalls loss model a pred ++
        evaluteCalls loss model b (a.foldl (predAfter loss model) pred) := by
  induction a with
  | nil => intro pred; rfl
  | cons m rest ih => intro pred; simp [evaluteCalls, ih]

theorem batchLosses_append [Zero R] (loss : Loss Row R M) (model : M)
    (a b : List (DMatrix Row R)) :
    ∀ pred, batchLosses loss model (a ++ b) pred =
      batchLosses loss model a pred ++
        batchLosses loss model b (a.foldl (predAfter loss model) pred) := by
  induction a with
  | nil => intro pred; rfl
  | cons m rest ih => intro pred; simp [batchLosses, ih]

theorem evalWhile_cons_run [Field R] (T : Trainer Row R M Met) (r : ReaderPtr)
    (m : DMatrix Row R) (rest : List (DMatrix Row R)) (L : EvalLocals R) (s : Mem Row R M Met)
    (p1 : List R) (c1 : Counters) (e : R) (h0 : m.row_length ≠ 0)
    (hp : T.loss_.Predict m s.model_ (fitPred L.pred m.row_length) = .ok p1)
    (hc : T.metric_.Accumulate L.counters m.Y p1 = .ok c1)
    (he : T.loss_.Evalute p1 m.Y = .ok e) :
    evalWhile T r (m :: rest) L s =
      ⟨Call.Reader_Samples r m.row_length ::
          Call.Loss_Predict m (fitPred L.pred m.row_length) ::
          Call.Metric_Accumulate m.Y p1 :: Call.Loss_Evalute p1 m.Y ::
          (evalWhile T r rest ⟨L.count_sample + m.row_length, L.loss_val + e, c1, p1⟩
            ⟨s.model_, s.metric, Function.update s.cursor r rest⟩).calls,
        (evalWhile T r rest ⟨L.count_sample + m.row_length, L.loss_val + e, c1, p1⟩
            ⟨s.model_, s.metric, Function.update s.cursor r rest⟩).mem,
        (evalWhile T r rest ⟨L.count_sample + m.row_length, L.loss_val + e, c1, p1⟩
            ⟨s.model_, s.metric, Function.update s.cursor r rest⟩).val⟩ := by
  cases hv : (evalWhile T r rest ⟨L.count_sample + m.row_length, L.loss_val + e, c1, p1⟩
      ⟨s.model_, s.metric, Function.update s.cursor r rest⟩).val <;>
    simp [evalWhile, Reader_Samples_cons, Reader_Samples_nil, Exec.pure_eq, Exec.ret,
      Exec.bind_eq, Exec.andThen, Exec.write, Exec.call, h0, Loss_Predict, Exec.read, hp,
      Exec.stop, Metric_Accumulate, hc, Loss_Evalute, he, hv]

theorem evalWhile_evalutes [Field R] (T : Trainer Row R M Met) (r : ReaderPtr)
    (ms : List (DMatrix Row R)) :
    ∀ (L : EvalLocals R) (s : Mem Row R M Met) (L1 : EvalLocals R),
      (evalWhile T r ms L s).val = .ok L1 →
      (evalWhile T r ms L s).calls.filter Call.isEvalute =
        evaluteCalls T.loss_ s.model_ (yields ms) L.pred ∧
      L1.pred = (yields ms).foldl (predAfter T.loss_ s.model_) L.pred ∧
      L1.loss_val = L.loss_val + (batchLosses T.loss_ s.model_ (yields ms) L.pred).sum ∧
      (∀ m pred, Call.Loss_Predict m pred ∈ (evalWhile T r ms L s).calls →
        ∃ p1, T.loss_.Predict m s.model_ pred = .ok p1) ∧
      ∀ pred label, Call.Loss_Evalute pred label ∈ (evalWhile T r ms L s).calls →
        ∃ e, T.loss_.Evalute pred label = .ok e := by
  induction ms with
  | nil =>
    intro L s L1 h
    have : L = L1 := by
      simpa [evalWhile, Reader_Samples_nil, Exec.pure_eq, Exec.ret, Exec.bind_eq,
        Exec.andThen] using h
    subst this
    simp [evalWhile, Reader_Samples_nil, Exec.pure_eq, Exec.ret, Exec.bind_eq, Exec.andThen,
      yields, evaluteCalls, batchLosses, Call.isEvalute]
  | cons m rest ih =>
    intro L s L1 h
    by_cases h0 : m.row_length = 0
    · have : L = L1 := by
        simpa [evalWhile, Reader_Samples_cons, Exec.pure_eq, Exec.ret, Exec.bind_eq,
          Exec.andThen, Exec.write, Exec.call, h0] using h
      subst this
      simp [evalWhile, Reader_Samples_cons, Exec.pure_eq, Exec.ret, Exec.bind_eq, Exec.andThen,
        Exec.write, Exec.call, h0, yields, evaluteCalls, batchLosses, Call.isEvalute]
    · have hy : yields (m :: rest) = m :: yields rest := by simp [yields, h0]
      cases hp : T.loss_.Predict m s.model_ (fitPred L.pred m.row_length) with
      | error f =>
        simp [evalWhile, Reader_Samples_cons, Exec.pure_eq, Exec.ret, Exec.bind_eq, Exec.andThen,
          Exec.write, Exec.call, h0, Loss_Predict, Exec.read, hp, Exec.stop] at h
      | ok p1 =>
        cases hc : T.metric_.Accumulate L.counters m.Y p1 with
        | error f =>
          simp [evalWhile, Reader_Samples_cons, Exec.pure_eq, Exec.ret, Exec.bind_eq,
            Exec.andThen, Exec.write, Exec.call, h0, Loss_Predict, Exec.read, hp, Exec.stop,
            Metric_Accumulate, hc] at h
        | ok c1 =>
          cases he : T.loss_.Evalute p1 m.Y with
          | error f =>
            simp [evalWhile, Reader_Samples_cons, Exec.pure_eq, Exec.ret, Exec.bind_eq,
              Exec.andThen, Exec.write, Exec.call, h0, Loss_Predict, Exec.read, hp, Exec.stop,
              Metric_Accumulate, hc, Loss_Evalute, he] at h
          | ok e =>
            have hpa : predAfter T.loss_ s.model_ L.pred m = p1 := by simp [predAfter, hp]
            rw [evalWhile_cons_run T r m rest L s p1 c1 e h0 hp hc he] at h ⊢
            obtain ⟨i1, i2, i3, i5, i4⟩ := ih _ _ L1 h
            dsimp only at i1 i2 i3 i4 i5 ⊢
            rw [hy]
            refine ⟨?_, ?_, ?_, ?_, ?_⟩
            · simp [List.filter_cons, Call.isEvalute, evaluteCalls, hpa, i1]
            · simp [hpa, i2]
            · simp [batchLosses, hpa, he, i3, add_assoc]
            · intro m1 pred hmem
              simp only [List.mem_cons, reduceCtorEq, false_or] at hmem
              rcases hmem with hmem | hmem
              · cases hmem
                exact ⟨p1, hp⟩
              · exact i5 m1 pred hmem
            · intro pred label hmem
              simp only [List.mem_cons, reduceCtorEq, false_or] at hmem
              rcases hmem with hmem | hmem
              · cases hmem
                exact ⟨e, he⟩
              · exact i4 pred label hmem

theorem evalReader_run [Field R] (T : Trainer Row R M Met) (r : ReaderPtr) (L : EvalLocals R)
    (s : Mem Row R M Met) :
    T.evalReader r L s =
      ⟨Call.Reader_Reset r :: (evalWhile T r (T.data r) L
          ⟨s.model_, s.metric, Function.update s.cursor r (T.data r)⟩).calls,
        (evalWhile T r (T.data r) L
          ⟨s.model_, s.metric, Function.update s.cursor r (T.data r)⟩).mem,
        (evalWhile T r (T.data r) L
          ⟨s.model_, s.metric, Function.update s.cursor r (T.data r)⟩).val⟩ := by
  cases hv : (evalWhile T r (T.data r) L
    ⟨s.model_, s.metric, Function.update s.cursor r (T.data r)⟩).val <;>
  simp [Trainer.evalReader, Exec.bind_eq, Exec.andThen, Reader_Reset, Exec.call, Exec.write,
    Exec.read, hv]

theorem evalReader_evalutes [Field R] (T : Trainer Row R M Met) (r : ReaderPtr)
    (L : EvalLocals R) (s : Mem Row R M Met) (L1 : EvalLocals R)
    (h : (T.evalReader r L s).val = .ok L1) :
    (T.evalReader r L s).calls.filter Call.isEvalute =
      evaluteCalls T.loss_ s.model_ (yields (T.data r)) L.pred ∧
    L1.pred = (yields (T.data r)).foldl (predAfter T.loss_ s.model_) L.pred ∧
    L1.loss_val = L.loss_val + (batchLosses T.loss_ s.model_ (yields (T.data r)) L.pred).sum ∧
    (∀ m pred, Call.Loss_Predict m pred ∈ (T.evalReader r L s).calls →
      ∃ p1, T.loss_.Predict m s.model_ pred = .ok p1) ∧
    ∀ pred label, Call.Loss_Evalute pred label ∈ (T.evalReader r L s).calls →
      ∃ e, T.loss_.Evalute pred label = .ok e := by
  rw [evalReader_run] at h ⊢
  obtain ⟨i1, i2, i3, i5, i4⟩ := evalWhile_evalutes T r (T.data r) L _ L1 h
  dsimp only at i1 i2 i3 i4 i5 ⊢
  refine ⟨?_, i2, i3, ?_, ?_⟩
  · simp [List.filter_cons, Call.isEvalute, i1]
  · intro m pred hmem
    simp only [List.mem_cons, reduceCtorEq, false_or] at hmem
    exact i5 m pred hmem
  · intro pred label hmem
    simp only [List.mem_cons, reduceCtorEq, false_or] at hmem
    exact i4 pred label hmem

theorem evalLoop_evalutes [Field R] (T : Trainer Row R M Met) (rs : List ReaderPtr) :
    ∀ (L : EvalLocals R) (s : Mem Row R M Met) (L1 : EvalLocals R),
      (Exec.forEachAcc T.evalReader rs L s).val = .ok L1 →
      (Exec.forEachAcc T.evalReader rs L s).calls.filter Call.isEvalute =
        evaluteCalls T.loss_ s.model_ (passBatches T rs) L.pred ∧
      L1.pred = (passBatches T rs).foldl (predAfter T.loss_ s.model_) L.pred ∧
      L1.loss_val = L.loss_val + (batchLosses T.loss_ s.model_ (passBatches T rs) L.pred).sum ∧
      (∀ m pred, Call.Loss_Predict m pred ∈ (Exec.forEachAcc T.evalReader rs L s).calls →
        ∃ p1, T.loss_.Predict m s.model_ pred = .ok p1) ∧
      ∀ pred label,
        Call.Loss_Evalute pred label ∈ (Exec.forEachAcc T.evalReader rs L s).calls →
          ∃ e, T.loss_.Evalute pred label = .ok e := by
  induction rs with
  | nil =>
    intro L s L1 h
    have : L = L1 := by simpa [Exec.forEachAcc, Exec.ret] using h
    subst this
    simp [Exec.forEachAcc, Exec.ret, passBatches, evaluteCalls, batchLosses]
  | cons r rs ih =>
    intro L s L1 h
    have hb : passBatches T (r :: rs) = yields (T.data r) ++ passBatches T rs := by
      simp [passBatches]
    unfold Exec.forEachAcc at h ⊢
    cases hv : (T.evalReader r L s).val with
    | error e =>
      rw [Exec.andThen_error hv] at h
      cases h
    | ok La =>
      rw [Exec.andThen_ok hv] at h ⊢
      obtain ⟨i1, i2, i3, i5, i4⟩ := evalReader_evalutes T r L s La hv
      obtain ⟨_, hm, _, _⟩ := evalReader_spec T r L s
      obtain ⟨k1, k2, k3, k5, k4⟩ := ih La (T.evalReader r L s).mem L1 h
      rw [hm] at k1 k2 k3 k5
      dsimp only at k1 k2 k3 k4 k5 ⊢
      rw [hb, evaluteCalls_append, batchLosses_append, List.foldl_append, List.sum_append,
        List.filter_append, i1, k1, k2, k3, i2, i3]
      refine ⟨rfl, rfl, by ring, ?_, ?_⟩
      · intro m pred hmem
        rcases List.mem_append.mp hmem with hmem | hmem
        · exact i5 m pred hmem
        · exact k5 m pred hmem
      · intro pred label hmem
        rcases List.mem_append.mp hmem with hmem | hmem
        · exact i4 pred label hmem
        · exact k4 pred label hmem

theorem filter_isSamples_evalPassFrame (T : Trainer Row R M Met) (reader : List ReaderPtr) :
    (evalPassFrame T reader).filter Call.isSamples =
      reader.flatMap fun r => evalWhileFrame r (T.data r) := by
  have hw : ∀ r, (evalWhileFrame r (T.data r)).filter Call.isSamples =
      evalWhileFrame r (T.data r) := by
    intro r
    rw [List.filter_eq_self]
    intro c hc
    simp only [evalWhileFrame, List.mem_append, List.mem_map, List.mem_singleton] at hc
    rcases hc with ⟨m, _, rfl⟩ | rfl <;> rfl
  simp [evalPassFrame, List.filter_cons, List.filter_flatMap, Call.isSamples, hw]

/-- C6 (sample-count accounting in `Trainer::CalcLoss_Metric`): for a non-empty
reader list that yields at least one row in total, on which the collaborators
return, the pass returns `(*loss, *metric)`.  Its `Samples` calls are, reader
by reader, one per batch, which returns the batch's non-zero row count, and
then the one that returns 0.  Its `Loss.Evalute` calls are exactly one per
batch of every reader, in order, on the prediction buffer of the batch and its
labels, and each of them returns, as does each `Loss.Predict` call that wrote
such a buffer.  `*loss` is `CalcLoss_spec`, the sum of their values divided by
the total row count; this is also the sum of what the `Loss.Evalute` calls in
the log returned divided by the (positive) sum of the counts that the
`Samples` calls in the log returned.  A pass over one reader that yields the
concatenation of the same batches in the same order returns the same
`(*loss, *metric)`. -/
theorem loss_sample_accounting [Field R] (T : Trainer Row R M Met)
    (reader : List ReaderPtr) (s : Mem Row R M Met) (hne : reader ≠ [])
    (h : T.ReturnsOnReaders reader) (hrows : 0 < totalRows T reader) :
    ∃ loss metric,
      (T.CalcLoss_Metric reader s).val = .ok (loss, metric) ∧
      (T.CalcLoss_Metric reader s).calls.filter Call.isSamples =
        (reader.flatMap fun r => evalWhileFrame r (T.data r)) ∧
      (T.CalcLoss_Metric reader s).calls.filter Call.isEvalute =
        evaluteCalls T.loss_ s.model_ (passBatches T reader) [] ∧
      (∀ m pred, Call.Loss_Predict m pred ∈ (T.CalcLoss_Metric reader s).calls →
        ∃ p1, T.loss_.Predict m s.model_ pred = .ok p1) ∧
      (∀ pred label, Call.Loss_Evalute pred label ∈ (T.CalcLoss_Metric reader s).calls →
        ∃ e, T.loss_.Evalute pred label = .ok e) ∧
      loss = CalcLoss_spec T reader s.model_ ∧
      0 < sumCounts (T.CalcLoss_Metric reader s).calls ∧
      sumCounts (T.CalcLoss_Metric reader s).calls = totalRows T reader ∧
      loss = sumEvals T.loss_ (T.CalcLoss_Metric reader s).calls /
        (sumCounts (T.CalcLoss_Metric reader s).calls : R) ∧
      ∀ (T1 : Trainer Row R M Met) (r0 : ReaderPtr),
        T1.loss_ = T.loss_ → T1.metric_ = T.metric_ →
        T1.data r0 = passBatches T reader →
        (T1.CalcLoss_Metric [r0] s).val = .ok (loss, metric) := by
  obtain ⟨⟨L, hL⟩, _⟩ := Exec.yields_forEachAcc reader
    (fun r hr L => evalReader_yields T (fun _ => false) (fun _ _ => rfl) r (h r hr) L)
    ⟨0, 0, ⟨0, 0, 0, 0⟩, []⟩ s
  obtain ⟨i1, _, i3, i4⟩ := evalLoop_spec T reader ⟨0, 0, ⟨0, 0, 0, 0⟩, []⟩ s
  obtain ⟨j1, j2⟩ := i4 L hL
  obtain ⟨k1, _, k3, k5, k4⟩ := evalLoop_evalutes T reader ⟨0, 0, ⟨0, 0, 0, 0⟩, []⟩ s L hL
  have hcount := evalVal_count T.loss_ T.metric_ s.model_ _ (flatMap_yields_nonzero T reader)
    _ L (i1.symm.trans hL)
  dsimp only at j1 j2 hcount k1 k3
  have hval := CalcLoss_Metric_val T reader hne s
  rw [← i1, hL] at hval
  have hrun := CalcLoss_Metric_run T reader hne s L hL
  have hsc : sumCounts (T.CalcLoss_Metric reader s).calls = L.count_sample := by
    rw [hrun]
    simp only [sumCounts, sumCounts_append]
    omega
  have hse : sumEvals T.loss_ (T.CalcLoss_Metric reader s).calls = L.loss_val := by
    rw [hrun]
    simp only [sumEvals, sumEvals_append]
    rw [j2]
    ring
  have htot : sumCounts (T.CalcLoss_Metric reader s).calls = totalRows T reader := by
    rw [hsc, hcount]
    simp [totalRows]
  have hsam := (CalcLoss_Metric_yields T reader Call.isSamples
    (fun c hc => by cases c <;> first | rfl | cases hc) hne h s).2
  refine ⟨_, _, hval, ?_, ?_, ?_, ?_, ?_, ?_, htot, ?_, ?_⟩
  · rw [hsam, filter_isSamples_evalPassFrame]
  · rw [hrun]
    simp [List.filter_cons, Call.isEvalute, k1]
  · intro m pred hmem
    rw [hrun] at hmem
    simp only [List.mem_cons, List.mem_append, reduceCtorEq, false_or, List.mem_singleton,
      List.not_mem_nil, or_false] at hmem
    exact k5 m pred hmem
  · intro pred label hmem
    rw [hrun] at hmem
    simp only [List.mem_cons, List.mem_append, reduceCtorEq, false_or, List.mem_singleton,
      List.not_mem_nil, or_false] at hmem
    exact k4 pred label hmem
  · unfold CalcLoss_spec
    rw [k3, ← htot, hsc]
    simp
  · rw [htot]; exact hrows
  · rw [hsc, hse]
  · intro T1 r0 hl hm hd
    rw [CalcLoss_Metric_val T1 [r0] (by simp) s]
    have hfm : ([r0].flatMap fun r => yields (T1.data r)) =
        reader.flatMap (fun r => yields (T.data r)) := by
      simp only [List.flatMap_cons, List.flatMap_nil, List.append_nil, hd]
      exact yields_of_nonzero _ (flatMap_yields_nonzero T reader)
    rw [hfm, hl, hm, ← i1, hL]

end TrainerTheorems

/-! ## The theorems at the example trainer -/

/-- The collaborators of the example trainer return on every batch. -/
theorem exampleTrainer_returns (quiet : Bool) (reader : List ReaderPtr) :
    (exampleTrainer quiet).ReturnsOnReaders reader := by
  intro r _ m _ _
  exact ⟨fun model => ⟨_, rfl⟩,
    fun model pred _ => ⟨_, rfl, by simp, fun c => ⟨_, rfl⟩, _, rfl⟩⟩

/-- `empty_reader_list_fails_fast` at the example trainer, on the empty list
and on the readers `[0, 1]`. -/
theorem empty_reader_list_example :
    ((exampleTrainer false).CalcGrad_Update [] exampleMem).val = .error Stop.reader_empty ∧
    ((exampleTrainer false).CalcLoss_Metric [] exampleMem).val = .error Stop.reader_empty ∧
    ((exampleTrainer false).CalcGrad_Update [] exampleMem).calls = [Call.CalcGrad_Update []] ∧
    ((exampleTrainer false).CalcGrad_Update [0, 1] exampleMem).val = .ok () ∧
    ∃ v, ((exampleTrainer false).CalcLoss_Metric [0, 1] exampleMem).val = .ok v :=
  have h0 := empty_reader_list_fails_fast (exampleTrainer false) [] exampleMem
  have h1 := empty_reader_list_fails_fast (exampleTrainer false) [0, 1] exampleMem
  ⟨h0.1.mpr rfl, h0.2.1.mpr rfl, by rw [(h0.2.2.1 rfl).1],
    (h1.2.2.2 (by simp) (exampleTrainer_returns false _)).1,
    (h1.2.2.2 (by simp) (exampleTrainer_returns false _)).2⟩

/-- `train_epoch_loop` at the example trainer, not quiet, with train readers
`[0]` and test readers `[1]`: two epochs of three passes each. -/
theorem train_epoch_loop_example :
    ([0] : List ReaderPtr) ≠ [] ∧
    ((exampleTrainer false).train [0] [1] exampleMem).val = .ok () ∧
    ((exampleTrainer false).train [0] [1] exampleMem).calls.filter Call.isPass =
      [Call.CalcGrad_Update [0], Call.CalcLoss_Metric [0], Call.CalcLoss_Metric [1],
        Call.CalcGrad_Update [0], Call.CalcLoss_Metric [0], Call.CalcLoss_Metric [1]] :=
  have h := train_epoch_loop (exampleTrainer false) [0] [1] exampleMem (by simp)
    (exampleTrainer_returns false [0]) (exampleTrainer_returns false [1])
  ⟨by simp, h.1, h.2.1⟩

/-- `CVTrain_fold_isolation` at the example trainer, quiet, with its three
readers: one `Model.Reset` before the second and before the third fold. -/
theorem CVTrain_fold_isolation_example :
    (exampleTrainer true).reader_list_.length ≠ 1 ∧
    ((exampleTrainer true).CVTrain exampleMem).val = .ok () ∧
    ((exampleTrainer true).CVTrain exampleMem).calls.filter Call.isModelStep =
      [Call.train [1, 2] [0],
        Call.Loss_CalcGrad (exampleBatch 1), Call.Loss_CalcGrad (exampleBatch 2),
        Call.Loss_CalcGrad (exampleBatch 1), Call.Loss_CalcGrad (exampleBatch 2),
        Call.Model_Reset, Call.train [0, 2] [1],
        Call.Loss_CalcGrad (exampleBatch 2), Call.Loss_CalcGrad (exampleBatch 3),
        Call.Loss_CalcGrad (exampleBatch 2),
        Call.Loss_CalcGrad (exampleBatch 2), Call.Loss_CalcGrad (exampleBatch 3),
        Call.Loss_CalcGrad (exampleBatch 2),
        Call.Model_Reset, Call.train [0, 1] [2],
        Call.Loss_CalcGrad (exampleBatch 2), Call.Loss_CalcGrad (exampleBatch 3),
        Call.Loss_CalcGrad (exampleBatch 1),
        Call.Loss_CalcGrad (exampleBatch 2), Call.Loss_CalcGrad (exampleBatch 3),
        Call.Loss_CalcGrad (exampleBatch 1)] :=
  have h := CVTrain_fold_isolation (exampleTrainer true) exampleMem (by decide)
    (exampleTrainer_returns true _)
  ⟨by decide, h.1, by rw [h.2.1]; rfl⟩

/-- The collaborators of `accountingTrainer` return on every batch. -/
theorem accountingTrainer_returns (reader : List ReaderPtr) :
    accountingTrainer.ReturnsOnReaders reader := by
  intro r _ m _ _
  exact ⟨fun model => ⟨_, rfl⟩,
    fun model pred _ => ⟨_, rfl, by simp, fun c => ⟨_, rfl⟩, _, rfl⟩⟩

/-- `loss_sample_accounting` at `accountingTrainer` and its three readers, from
a model that predicts 1 for every row: the batches have 2, 3, 1 and 2 rows,
`Evalute` returns 4, 9, 1 and 4 on them, and `*loss` is `18 / 8`, which is
neither the mean over the four batches nor the mean of the three per-reader
means; one reader with the four batches gives the same. -/
theorem loss_sample_accounting_example :
    0 < totalRows accountingTrainer [0, 1, 2] ∧
    CalcLoss_spec accountingTrainer [0, 1, 2] trainedMem.model_ = 9 / 4 ∧
    ∃ metric,
      (accountingTrainer.CalcLoss_Metric [0, 1, 2] trainedMem).val = .ok (9 / 4, metric) ∧
      (accountingTrainer.CalcLoss_Metric [0, 1, 2] trainedMem).calls.filter Call.isEvalute =
        [Call.Loss_Evalute [1, 1] [1, 1], Call.Loss_Evalute [1, 1, 1] [1, 1, 1],
          Call.Loss_Evalute [1] [1], Call.Loss_Evalute [1, 1] [1, 1]] ∧
      (concatenatedTrainer.CalcLoss_Metric [0] trainedMem).val = .ok (9 / 4, metric) := by
  have h0 : 0 < totalRows accountingTrainer [0, 1, 2] := by decide
  have hspec0 : CalcLoss_spec accountingTrainer [0, 1, 2] trainedMem.model_ = 9 / 4 := by
    have hb : passBatches accountingTrainer [0, 1, 2] =
        [exampleBatch 2, exampleBatch 3, exampleBatch 1, exampleBatch 2] := by decide
    have ht : totalRows accountingTrainer [0, 1, 2] = 8 := by decide
    rw [CalcLoss_spec, hb, ht]
    norm_num [batchLosses, predAfter, accountingTrainer, accountingLoss, exampleBatch, fitPred,
      resize, trainedMem]
  obtain ⟨loss, metric, h1, _, hE, _, _, hspec, _, _, _, hcat⟩ :=
    loss_sample_accounting accountingTrainer [0, 1, 2] trainedMem (by simp)
      (accountingTrainer_returns _) h0
  rw [hspec0] at hspec
  subst hspec
  exact ⟨h0, hspec0, metric, h1, hE.trans (by decide),
    hcat concatenatedTrainer 0 rfl rfl (by decide)⟩

/-- `prediction_buffer_exact` at the example trainer and its three readers,
whose batches have 2, 3, 1 and 2 rows. -/
theorem prediction_buffer_exact_example :
    bufferExact none ((exampleTrainer false).CalcLoss_Metric [0, 1, 2] exampleMem).calls = true :=
  prediction_buffer_exact (exampleTrainer false) [0, 1, 2] exampleMem (by
    intro m model p p1 h
    have : p1 = p.map fun _ => model := by
      simpa [exampleTrainer, exampleLoss] using h.symm
    rw [this, List.length_map])

end xLearn
